import Mathlib

/-!
Verification development for the harfbuzz shaping core of
`wezterm-font/src/shaper/harfbuzz.rs`.

The Rust code is shallowly embedded as follows:

* UTF-8 text is a `List Char`; Rust byte offsets become sums of
  `Char.utf8Size`, with `isBoundary`, `byteTake` and `byteDrop` modelling
  `str::is_char_boundary` and byte-range slicing.
* The harfbuzz shaping backend, the freetype size selection, the Unicode
  grapheme segmenter and `unicode_column_width` are external collaborators;
  they are oracles carried in a `Ctx` record.  The claims that depend on
  their behaviour take the documented contracts as hypotheses.
* 26.6 fixed-point positions are `Int`; pixel values (fixed-point divided
  by 64) and `f64` cell metrics are idealized as `ℚ`.  The only property
  of `f64` used by the code beyond arithmetic is NaN-ness of the metrics
  key size, modelled by the `F64` record with an explicit `isNaN` flag.
* The per-slot `RefCell<Option<FontPair>>` table, the `no_glyphs` out
  parameter and the metrics `HashMap` are threaded explicitly as a state
  record `St`; `anyhow::Result` becomes `Except Err`, and panics on the
  metrics path become a distinguished error value.
* `do_shape` recurses through fallback slots; the Rust recursion is not
  structurally terminating (an adversarial backend can alternate
  replacement strings forever), so the embedding takes an explicit fuel,
  with exhaustion reported as a distinguished error.
-/

/-! ## Byte-offset model of UTF-8 text -/

abbrev Str := List Char

/-- Total number of UTF-8 bytes of a character list, i.e. Rust `str::len`. -/
def utf8Len (s : Str) : Nat := (s.map Char.utf8Size).sum

/-- Rust `str::is_char_boundary n`: `n` is 0, the total length, or the start
of a character when counting UTF-8 bytes. -/
def isBoundary : Str → Nat → Bool
  | _, 0 => true
  | [], _ + 1 => false
  | c :: rest, n + 1 =>
    if c.utf8Size ≤ n + 1 then isBoundary rest (n + 1 - c.utf8Size) else false

/-- Drop the first `n` bytes (Rust `&s[n..]` for a boundary `n`; total). -/
def byteDrop : Str → Nat → Str
  | s, 0 => s
  | [], _ + 1 => []
  | c :: rest, n + 1 => byteDrop rest (n + 1 - c.utf8Size)

/-- Take the first `n` bytes (Rust `&s[..n]` for a boundary `n`; total). -/
def byteTake : Str → Nat → Str
  | _, 0 => []
  | [], _ + 1 => []
  | c :: rest, n + 1 => c :: byteTake rest (n + 1 - c.utf8Size)

/-- Rust `&s[a..a+l]`. -/
def byteSlice (s : Str) (a l : Nat) : Str := byteTake (byteDrop s a) l

@[simp] theorem utf8Len_nil : utf8Len [] = 0 := rfl

@[simp] theorem utf8Len_cons (c : Char) (s : Str) :
    utf8Len (c :: s) = c.utf8Size + utf8Len s := by
  simp [utf8Len]

theorem utf8Len_append (a b : Str) : utf8Len (a ++ b) = utf8Len a + utf8Len b := by
  induction a with
  | nil => simp
  | cons c t ih => simp [ih]; ring

@[simp] theorem isBoundary_zero (s : Str) : isBoundary s 0 = true := by
  cases s <;> rfl

theorem isBoundary_le {s : Str} {n : Nat} (h : isBoundary s n = true) :
    n ≤ utf8Len s := by
  induction s generalizing n with
  | nil =>
    cases n with
    | zero => simp
    | succ m => simp [isBoundary] at h
  | cons c rest ih =>
    cases n with
    | zero => simp
    | succ m =>
      simp only [isBoundary] at h
      split at h
      · have := ih h
        simp only [utf8Len_cons]
        omega
      · exact absurd h (by simp)

theorem isBoundary_utf8Len (s : Str) : isBoundary s (utf8Len s) = true := by
  induction s with
  | nil => simp
  | cons c rest ih =>
    have hpos := Char.utf8Size_pos c
    have : utf8Len (c :: rest) = (utf8Len rest + c.utf8Size - 1) + 1 := by
      simp only [utf8Len_cons]; omega
    rw [this]
    simp only [isBoundary]
    have hle : c.utf8Size ≤ utf8Len rest + c.utf8Size - 1 + 1 := by omega
    rw [if_pos hle]
    have : utf8Len rest + c.utf8Size - 1 + 1 - c.utf8Size = utf8Len rest := by omega
    rw [this]
    exact ih

theorem byteTake_append_byteDrop (s : Str) (n : Nat) :
    byteTake s n ++ byteDrop s n = s := by
  induction s generalizing n with
  | nil => cases n <;> rfl
  | cons c rest ih =>
    cases n with
    | zero => rfl
    | succ m => simp [byteTake, byteDrop, ih]

theorem utf8Len_byteDrop {s : Str} {n : Nat} (h : isBoundary s n = true) :
    utf8Len (byteDrop s n) = utf8Len s - n := by
  induction s generalizing n with
  | nil => cases n <;> simp [byteDrop]
  | cons c rest ih =>
    cases n with
    | zero => simp [byteDrop]
    | succ m =>
      simp only [isBoundary] at h
      split at h
      · rename_i hle
        simp only [byteDrop, utf8Len_cons]
        rw [ih h]
        omega
      · exact absurd h (by simp)

theorem utf8Len_byteTake {s : Str} {n : Nat} (h : isBoundary s n = true) :
    utf8Len (byteTake s n) = n := by
  have hsplit := byteTake_append_byteDrop s n
  have h1 : utf8Len (byteTake s n) + utf8Len (byteDrop s n) = utf8Len s := by
    rw [← utf8Len_append, hsplit]
  have h2 := utf8Len_byteDrop h
  have h3 := isBoundary_le h
  omega

theorem isBoundary_byteDrop {s : Str} {a : Nat} (h : isBoundary s a = true)
    (b : Nat) : isBoundary (byteDrop s a) b = isBoundary s (a + b) := by
  induction s generalizing a with
  | nil =>
    cases a with
    | zero => simp [byteDrop]
    | succ m => simp [isBoundary] at h
  | cons c rest ih =>
    cases a with
    | zero => simp [byteDrop]
    | succ m =>
      simp only [isBoundary] at h
      split at h
      · rename_i hle
        simp only [byteDrop]
        rw [ih h]
        have harith : m + 1 + b = (m + 1 + b - 1) + 1 := by omega
        conv_rhs => rw [harith]
        simp only [isBoundary]
        have hle2 : c.utf8Size ≤ m + 1 + b - 1 + 1 := by omega
        rw [if_pos hle2]
        congr 1
        omega
      · exact absurd h (by simp)

/-- A byte offset that is the total length of a list prefix is a boundary. -/
theorem isBoundary_append_left (g t : Str) :
    isBoundary (g ++ t) (utf8Len g) = true := by
  induction g with
  | nil => simp
  | cons c rest ih =>
    have hpos := Char.utf8Size_pos c
    have : utf8Len (c :: rest) = (utf8Len rest + c.utf8Size - 1) + 1 := by
      simp only [utf8Len_cons]; omega
    rw [this]
    simp only [List.cons_append, isBoundary]
    have hle : c.utf8Size ≤ utf8Len rest + c.utf8Size - 1 + 1 := by omega
    rw [if_pos hle]
    have : utf8Len rest + c.utf8Size - 1 + 1 - c.utf8Size = utf8Len rest := by omega
    rw [this]
    exact ih

/-- Boundaries of a prefix cut at a boundary are boundaries of the whole. -/
theorem isBoundary_of_byteTake {s : Str} {L b : Nat}
    (hL : isBoundary s L = true) (hb : isBoundary (byteTake s L) b = true) :
    isBoundary s b = true := by
  induction s generalizing L b with
  | nil =>
    cases L with
    | zero =>
      cases b with
      | zero => simp
      | succ m => simp [byteTake, isBoundary] at hb
    | succ m => simp [isBoundary] at hL
  | cons c rest ih =>
    cases L with
    | zero =>
      cases b with
      | zero => simp
      | succ m => simp [byteTake, isBoundary] at hb
    | succ m =>
      simp only [isBoundary] at hL
      split at hL
      · rename_i hle
        cases b with
        | zero => simp
        | succ k =>
          simp only [byteTake, isBoundary] at hb
          split at hb
          · rename_i hle2
            simp only [isBoundary]
            rw [if_pos hle2]
            exact ih hL hb
          · exact absurd hb (by simp)
      · exact absurd hL (by simp)

/-! ## Data model of the shaper

Mirrors `FontPair`, `MetricsKey`, `HarfbuzzShaper`, the glyph records and
the error type of `harfbuzz.rs`.  External collaborators (harfbuzz,
freetype, the grapheme segmenter, `unicode_column_width`) appear as
oracle functions in `Ctx`; the per-call font size and dpi are fixed
parameters of a shaping call and are absorbed into the shaping oracles. -/

/-- `termwiz::cell::Presentation`. -/
inductive Presentation where
  | text : Presentation
  | emoji : Presentation
deriving DecidableEq, Repr

/-- One lazily-created pair per stack slot; `face`/`font` handles are
opaque and carry no observable state beyond what the shaping oracle
models, so only the two observable fields remain. -/
structure FontPair where
  shaped_any : Bool
  presentation : Presentation
deriving DecidableEq, Repr

/-- An `f64` as used for the metrics size key: an idealized rational value
plus an explicit NaN marker (the only `f64`-specific behaviour the code
depends on). -/
structure F64 where
  val : ℚ
  isNaN : Bool
deriving DecidableEq

/-- `MetricsKey`; `size` holds the raw float that `NotNan::new` accepted. -/
structure MetricsKey where
  font_idx : Nat
  size : F64
  dpi : Nat
deriving DecidableEq

/-- `FontMetrics` (pixel lengths as `ℚ`). -/
structure FontMetrics where
  cell_height : ℚ
  cell_width : ℚ
  descender : ℚ
  underline_thickness : ℚ
  underline_position : ℚ
  presentation : Presentation
deriving DecidableEq

/-- Raw glyph data from the shaping backend: `hb_glyph_info_t` merged with
`hb_glyph_position_t` (26.6 fixed-point positions as `Int`). -/
structure HbGlyph where
  cluster : Nat
  codepoint : Nat
  x_advance : Int
  y_advance : Int
  x_offset : Int
  y_offset : Int
deriving DecidableEq

/-- The internal `Info` record: an `HbGlyph` plus the backfilled byte
length of the text fragment the glyph covers. -/
structure Info where
  cluster : Nat
  len : Nat
  codepoint : Nat
  x_advance : Int
  y_advance : Int
  x_offset : Int
  y_offset : Int
deriving DecidableEq

instance : Inhabited Info := ⟨⟨0, 0, 0, 0, 0, 0, 0⟩⟩

/-- The public `GlyphInfo` record; pixel values are the 26.6 fixed-point
backend values divided by 64. -/
structure GlyphInfo where
  text : Str
  is_space : Bool
  num_cells : Nat
  font_idx : Nat
  glyph_pos : Nat
  cluster : Nat
  x_advance : ℚ
  y_advance : ℚ
  x_offset : ℚ
  y_offset : ℚ
deriving DecidableEq

/-- Shaping errors.  `noMoreFallbacks` is `NoMoreFallbacksError`;
`outOfFuel` is the embedding's marker for recursion deeper than the
supplied fuel (the Rust recursion has no such bound). -/
inductive Err where
  | noMoreFallbacks (text : Str) : Err
  | outOfFuel : Err
deriving DecidableEq

/-- Errors of the metrics path: `loadFail` is the anyhow error for an
unloadable slot, `nanPanic` marks the `NotNan::new(size).unwrap()` panic. -/
inductive MErr where
  | loadFail : MErr
  | nanPanic : MErr
deriving DecidableEq

/-- The immutable environment of a shaper: the font handles
(`assume_emoji_presentation` flag per slot) and the external oracles.
`backend j t` is the glyph/position array harfbuzz produces when the
sub-run `t` is shaped with the slot-`j` font at the call's size and dpi;
`cellWidth j` is `set_font_size(..).width` for that slot; `heightOf`
and `fmOf` are the freetype size/metrics data used on the metrics path
(per slot, size value and dpi); `graphemes` is
`UnicodeSegmentation::graphemes(true)` and `colWidth` is
`unicode_column_width`. -/
structure Ctx where
  handles : List Bool
  backend : Nat → Str → List HbGlyph
  cellWidth : Nat → ℚ
  heightOf : Nat → ℚ → Nat → ℚ
  fmOf : Nat → ℚ → Nat → FontMetrics
  graphemes : Str → List Str
  colWidth : Str → Nat

/-- The mutable state of a shaper: the slot table, the `no_glyphs` out
parameter and the metrics cache. -/
structure St where
  fonts : List (Option FontPair)
  no_glyphs : Str
  cache : List (MetricsKey × FontMetrics)
deriving DecidableEq

/-- Fresh shaper state (`HarfbuzzShaper::new`). -/
def St.init (ctx : Ctx) : St :=
  { fonts := List.replicate ctx.handles.length none, no_glyphs := [], cache := [] }

/-- The pair materialized on first access to a slot. -/
def mkPair (ctx : Ctx) (idx : Nat) : FontPair :=
  { shaped_any := false,
    presentation := if ctx.handles.getD idx false then Presentation.emoji else Presentation.text }

/-- `load_fallback`: `none` past the stack length, otherwise the stored
pair, lazily materialized. -/
def loadPair (ctx : Ctx) (st : St) (idx : Nat) : Option (FontPair × St) :=
  if idx < ctx.handles.length then
    match st.fonts.getD idx none with
    | some pair => some (pair, st)
    | none =>
      let pair := mkPair ctx idx
      some (pair, { st with fonts := st.fonts.set idx (some pair) })
  else none

theorem loadPair_lt {ctx : Ctx} {st : St} {idx : Nat} {x : FontPair × St}
    (h : loadPair ctx st idx = some x) : idx < ctx.handles.length := by
  by_contra hn
  simp [loadPair, hn] at h

/-- The slot-selection loop at the head of `do_shape`: skip slots whose
presentation disagrees with a requested presentation, but never past the
last slot; stop at the first acceptable slot (where shaping then runs).
The loop advances only while `idx + 1` is inside the stack, so the
structural fuel of `selectSlotGo` never runs out when it starts at one
more than the stack length minus the index; the fuel-zero case coincides
with the load failure that the same index would produce. -/
def selectSlotGo (ctx : Ctx) (pres : Option Presentation) :
    Nat → Nat → St → St × Option (Nat × FontPair)
  | 0, _, st => (st, none)
  | fuel + 1, idx, st =>
    match loadPair ctx st idx with
    | none => (st, none)
    | some (pair, st1) =>
      match pres with
      | some p =>
        if idx + 1 < ctx.handles.length then
          if pair.presentation ≠ p then selectSlotGo ctx pres fuel (idx + 1) st1
          else (st1, some (idx, pair))
        else (st1, some (idx, pair))
      | none => (st1, some (idx, pair))

def selectSlot (ctx : Ctx) (pres : Option Presentation) (idx : Nat) (st : St) :
    St × Option (Nat × FontPair) :=
  selectSlotGo ctx pres (ctx.handles.length + 1 - idx) idx st

/-- `is_question_string`. -/
def replChar : Char := Char.ofNat 0xFFFD

def is_question_string (s : Str) : Bool := s.all (fun c => c = replChar)

/-- `make_question_string`, parameterized by the grapheme segmenter. -/
def make_question_string (G : Str → List Str) (s : Str) : Str :=
  List.replicate (G s).length
    (if ¬ is_question_string s then replChar else '?')

/-- `make_glyphinfo`. -/
def make_glyphinfo (ctx : Ctx) (text : Str) (font_idx : Nat) (info : Info) : GlyphInfo :=
  { text := text
    is_space := text = [' ']
    num_cells := ctx.colWidth text
    font_idx := font_idx
    glyph_pos := info.codepoint
    cluster := info.cluster
    x_advance := (info.x_advance : ℚ) / 64
    y_advance := (info.y_advance : ℚ) / 64
    x_offset := (info.x_offset : ℚ) / 64
    y_offset := (info.y_offset : ℚ) / 64 }

/-! ## Cluster partitioning (Step 5) -/

/-- Pair every backend glyph with the cluster of the following glyph, or
with the total byte length for the last one (the peekable-iterator pass). -/
def withNext (total : Nat) : List HbGlyph → List (HbGlyph × Nat)
  | [] => []
  | [g] => [(g, total)]
  | g :: g2 :: rest => (g, g2.cluster) :: withNext total (g2 :: rest)

/-- The `Info` built for one glyph: `len` is next cluster minus own. -/
def mkInfo (g : HbGlyph) (np : Nat) : Info :=
  { cluster := g.cluster, len := np - g.cluster, codepoint := g.codepoint,
    x_advance := g.x_advance, y_advance := g.y_advance,
    x_offset := g.x_offset, y_offset := g.y_offset }

/-- The grouping loop over `withNext` output.  `cur` is the group being
built, most recent member first (the vec's last element).  A glyph with
the same cluster joins the group; a missing glyph (`codepoint == 0`)
following a group that already ends in a missing glyph is absorbed by
extending that member's length; anything else closes the group. -/
def clusterGo (cur : List Info) : List (HbGlyph × Nat) → List (List Info)
  | [] => [cur.reverse]
  | (g, np) :: rest =>
    let info := mkInfo g np
    match cur with
    | [] => clusterGo [info] rest
    | last :: prev =>
      if info.cluster = last.cluster then
        clusterGo (info :: last :: prev) rest
      else if info.codepoint = 0 ∧ last.codepoint = 0 then
        clusterGo ({ last with len := np - last.cluster } :: prev) rest
      else
        (last :: prev).reverse :: clusterGo [info] rest

/-- `info_clusters`: the list of logical clusters, in input order. -/
def buildClusters : List (HbGlyph × Nat) → List (List Info)
  | [] => []
  | l => clusterGo [] l

/-- Total covered byte length of a cluster. -/
def sumLen (g : List Info) : Nat := (g.map Info.len).sum

/-- Byte offset of a cluster (all members share it). -/
def startOf (g : List Info) : Nat := (g.headD default).cluster

/-! ## Per-cluster emission (Step 6) -/

/-- The nominal cell count `((x_advance/64)/cell_width).ceil() as usize`
(the float-to-usize cast saturates negative values at zero, matching
`Int.toNat`). -/
def nomWidth (xadv : Int) (cellw : ℚ) : Nat :=
  (⌈((xadv : ℚ) / 64) / cellw⌉).toNat

/-- Byte length carved for one glyph: the nominal width if positive and on
a boundary, else the first grapheme of the remainder, else the (empty)
remainder. -/
def carveLen (G : Str → List Str) (substr : Str) (cellw : ℚ) (next_idx : Nat)
    (xadv : Int) : Nat :=
  let nom := nomWidth xadv cellw
  if nom = 0 ∨ ¬ isBoundary substr (next_idx + nom) = true then
    match G (byteDrop substr next_idx) with
    | g :: _ => utf8Len g
    | [] => utf8Len (byteDrop substr next_idx)
  else nom

/-- The emission loop over one fully-mapped cluster: skip zero-advance
glyphs, carve a fragment for each remaining glyph, and push the glyph if
its pixel advance is non-zero (an empty fragment yields the debug
placeholder text). -/
def emitRun (ctx : Ctx) (j : Nat) (cellw : ℚ) (substr : Str) :
    List Info → Nat → List GlyphInfo
  | [], _ => []
  | info :: rest, next_idx =>
    if info.x_advance = 0 then emitRun ctx j cellw substr rest next_idx
    else
      let len := carveLen ctx.graphemes substr cellw next_idx info.x_advance
      let glyph :=
        if 0 < len then
          make_glyphinfo ctx (byteTake (byteDrop substr next_idx) len) j info
        else make_glyphinfo ctx ['_', '_'] j info
      if glyph.x_advance ≠ 0 then
        glyph :: emitRun ctx j cellw substr rest (next_idx + len)
      else emitRun ctx j cellw substr rest (next_idx + len)

/-! ## The shaping driver -/

/-- The per-cluster loop of `do_shape`: recurse into the next slot for
clusters containing a missing glyph (falling back to a replacement string
at slot 0 if that fails), emit fully-mapped clusters directly, and count
directly emitted glyphs (`direct_clusters`). -/
def processClusters (ctx : Ctx)
    (recurse : Nat → Str → St → Option Presentation → St × Except Err (List GlyphInfo))
    (j : Nat) (cellw : ℚ) (s : Str) (pres : Option Presentation) :
    List (List Info) → St → St × Except Err (List GlyphInfo × Nat)
  | [], st => (st, Except.ok ([], 0))
  | infos :: rest, st =>
    let cluster_len := sumLen infos
    let cluster_start := startOf infos
    let substr := byteSlice s cluster_start cluster_len
    if infos.any (fun i => i.codepoint == 0) then
      match recurse (j + 1) substr st pres with
      | (st1, r1) =>
        match (match r1 with
               | Except.ok sh => (st1, Except.ok sh)
               | Except.error _ =>
                 recurse 0 (make_question_string ctx.graphemes substr) st1 pres) with
        | (st2, Except.error e) => (st2, Except.error e)
        | (st2, Except.ok shaped) =>
          let shifted := shaped.map fun gl => { gl with cluster := gl.cluster + cluster_start }
          match processClusters ctx recurse j cellw s pres rest st2 with
          | (st3, Except.error e) => (st3, Except.error e)
          | (st3, Except.ok (gs, d)) => (st3, Except.ok (shifted ++ gs, d))
    else
      let glyphs := emitRun ctx j cellw substr infos 0
      match processClusters ctx recurse j cellw s pres rest st with
      | (st3, Except.error e) => (st3, Except.error e)
      | (st3, Except.ok (gs, d)) => (st3, Except.ok (glyphs ++ gs, d + glyphs.length))

/-- Step 7: if the pair had never shaped anything, evict the slot when no
glyph was directly emitted, otherwise pin whatever pair the slot still
holds. -/
def evictStep (shapedAnyBefore : Bool) (j : Nat) (direct : Nat) (st : St) : St :=
  if shapedAnyBefore then st
  else if direct = 0 then { st with fonts := st.fonts.set j none }
  else match st.fonts.getD j none with
       | some p => { st with fonts := st.fonts.set j (some { p with shaped_any := true }) }
       | none => st

/-- The body of `do_shape` after slot selection and the last-resort
branch: run the backend, partition into clusters, emit, then apply the
eviction step (skipped when cluster processing failed, matching the `?`
early return). -/
def shapeTail (ctx : Ctx)
    (recurse : Nat → Str → St → Option Presentation → St × Except Err (List GlyphInfo))
    (j : Nat) (shapedAnyBefore : Bool) (s : Str) (st : St)
    (pres : Option Presentation) : St × Except Err (List GlyphInfo) :=
  let cellw := ctx.cellWidth j
  let raw := ctx.backend j s
  let groups := buildClusters (withNext (utf8Len s) raw)
  match processClusters ctx recurse j cellw s pres groups st with
  | (st2, Except.error e) => (st2, Except.error e)
  | (st2, Except.ok (glyphs, direct)) =>
    (evictStep shapedAnyBefore j direct st2, Except.ok glyphs)

/-- `do_shape`.  The fuel bounds the recursion depth; every Rust recursion
site consumes one unit. -/
def do_shape (ctx : Ctx) :
    Nat → Nat → Str → St → Option Presentation → St × Except Err (List GlyphInfo)
  | 0, _, _, st, _ => (st, Except.error Err.outOfFuel)
  | fuel + 1, idx, s, st, pres =>
    match selectSlot ctx pres idx st with
    | (st1, none) =>
      ({ st1 with no_glyphs := st1.no_glyphs ++ s }, Except.error (Err.noMoreFallbacks s))
    | (st1, some (j, pair)) =>
      if j > 0 ∧ j + 1 = ctx.handles.length then
        let st2 := { st1 with no_glyphs := st1.no_glyphs ++ s }
        if pres.isSome then do_shape ctx fuel idx s st2 none
        else shapeTail ctx (do_shape ctx fuel) j pair.shaped_any s st2 pres
      else shapeTail ctx (do_shape ctx fuel) j pair.shaped_any s st1 pres

/-- The public facade `shape` (the duration histogram is dropped). -/
def shape (ctx : Ctx) (fuel : Nat) (s : Str) (st : St)
    (pres : Option Presentation) : St × Except Err (List GlyphInfo) :=
  do_shape ctx fuel 0 s st pres

/-! ## Metrics resolver -/

/-- Association-list lookup standing in for the metrics `HashMap`. -/
def cacheGet (c : List (MetricsKey × FontMetrics)) (k : MetricsKey) :
    Option FontMetrics :=
  (c.find? (fun kv => kv.1 = k)).map (fun kv => kv.2)

/-- `metrics_for_idx`: load the slot, build the key (panicking on a NaN
size), consult the cache, otherwise compute, insert and return. -/
def metrics_for_idx (ctx : Ctx) (font_idx : Nat) (size : F64) (dpi : Nat)
    (st : St) : St × Except MErr FontMetrics :=
  match loadPair ctx st font_idx with
  | none => (st, Except.error MErr.loadFail)
  | some (pair, st1) =>
    if size.isNaN then (st1, Except.error MErr.nanPanic)
    else
      let key : MetricsKey := ⟨font_idx, size, dpi⟩
      match cacheGet st1.cache key with
      | some m => (st1, Except.ok m)
      | none =>
        let m0 := ctx.fmOf font_idx size.val dpi
        let m := { m0 with presentation := pair.presentation }
        ({ st1 with cache := (key, m) :: st1.cache }, Except.ok m)

/-- The sanity window of the `metrics` loop for one slot (a NaN size makes
every float comparison false). -/
def qualifies (ctx : Ctx) (size : F64) (dpi : Nat) (th : ℚ) (i : Nat) : Prop :=
  size.isNaN = false ∧ |th - ctx.heightOf i size.val dpi| / th < 2

instance (ctx : Ctx) (size : F64) (dpi : Nat) (th : ℚ) (i : Nat) :
    Decidable (qualifies ctx size dpi th i) := by
  unfold qualifies; infer_instance

/-- The `while let Ok(Some(..))` loop of `metrics`: advance until a slot
passes the sanity window or the stack is exhausted.  Structural fuel as
in `selectSlotGo`; the fuel-zero case coincides with the load failure the
same index would produce. -/
def metricsLoopGo (ctx : Ctx) (size : F64) (dpi : Nat) (th : ℚ) :
    Nat → Nat → St → Nat × St
  | 0, i, st => (i, st)
  | fuel + 1, i, st =>
    match loadPair ctx st i with
    | none => (i, st)
    | some (_, st1) =>
      if qualifies ctx size dpi th i then (i, st1)
      else metricsLoopGo ctx size dpi th fuel (i + 1) st1

def metricsLoop (ctx : Ctx) (size : F64) (dpi : Nat) (th : ℚ) (i : Nat)
    (st : St) : Nat × St :=
  metricsLoopGo ctx size dpi th (ctx.handles.length + 1 - i) i st

/-- `metrics`: pick the slot via the sanity loop, then delegate. -/
def metrics (ctx : Ctx) (size : F64) (dpi : Nat) (st : St) :
    St × Except MErr FontMetrics :=
  let th := size.val * (dpi : ℚ) / 72
  match metricsLoop ctx size dpi th 0 st with
  | (i, st1) => metrics_for_idx ctx i size dpi st1

/-! ## Observables used by theorem statements -/

/-- Whether a shaping result is a success. -/
def resOk (r : St × Except Err (List GlyphInfo)) : Bool :=
  match r.2 with
  | Except.ok _ => true
  | Except.error _ => false

/-- The cluster values of a successful shaping result, in output order. -/
def resClusters (r : St × Except Err (List GlyphInfo)) : List Nat :=
  match r.2 with
  | Except.ok gs => gs.map GlyphInfo.cluster
  | Except.error _ => []

/-- One string extends another by appending. -/
def strExt (a b : Str) : Prop := ∃ t, b = a ++ t

/-! ## External contracts -/

/-- The monotone-graphemes cluster contract of the shaping backend:
cluster offsets are non-decreasing valid boundaries of the sub-run. -/
def BackendMono (ctx : Ctx) : Prop :=
  ∀ j t, List.Pairwise (· ≤ ·) ((ctx.backend j t).map HbGlyph.cluster) ∧
    ∀ g ∈ ctx.backend j t, isBoundary t g.cluster = true

/-- The last-resort guarantee of §3: the last slot maps every codepoint to
some glyph, so it never reports a missing glyph. -/
def LastResortTotal (ctx : Ctx) : Prop :=
  ∀ t g, g ∈ ctx.backend (ctx.handles.length - 1) t → g.codepoint ≠ 0

/-- Contract of the Unicode grapheme segmenter: segments concatenate to
the input and are never empty. -/
structure SegOK (G : Str → List Str) : Prop where
  join_eq : ∀ s, (G s).flatten = s
  ne_nil : ∀ s g, g ∈ G s → g ≠ []

/-- The one-character-per-grapheme segmenter used on concrete inputs where
it agrees with Unicode segmentation. -/
def charSeg (s : Str) : List Str := s.map (fun c => [c])

theorem charSeg_ok : SegOK charSeg := by
  constructor
  · intro s
    induction s with
    | nil => rfl
    | cons c t ih => simp [charSeg] at ih ⊢; exact ih
  · intro s g hg
    simp [charSeg] at hg
    obtain ⟨c, _, hc⟩ := hg
    simp [← hc]

/-! ## Basic state lemmas -/

theorem getD_set_ne {α : Type} {l : List (Option α)} {i k : Nat} (h : i ≠ k)
    (v : Option α) : (l.set i v).getD k none = l.getD k none := by
  simp [List.getD_eq_getElem?_getD, List.getElem?_set_ne h]

theorem getD_set_self {α : Type} {l : List (Option α)} {i : Nat}
    (h : i < l.length) (v : Option α) : (l.set i v).getD i none = v := by
  simp [List.getD_eq_getElem?_getD, List.getElem?_set_self', h]

theorem loadPair_none_iff {ctx : Ctx} {st : St} {idx : Nat} :
    loadPair ctx st idx = none ↔ ctx.handles.length ≤ idx := by
  constructor
  · intro h
    by_contra hn
    push_neg at hn
    simp only [loadPair, if_pos hn] at h
    split at h <;> simp at h
  · intro h
    simp [loadPair, Nat.not_lt.mpr h]

/-- What `load_fallback` preserves and guarantees on success. -/
theorem loadPair_some_spec {ctx : Ctx} {st : St} {idx : Nat} {pair : FontPair}
    {st1 : St} (h : loadPair ctx st idx = some (pair, st1)) :
    st1.no_glyphs = st.no_glyphs ∧ st1.cache = st.cache ∧
    st1.fonts.length = st.fonts.length ∧
    (∀ k q, st.fonts.getD k none = some q → st1.fonts.getD k none = some q) ∧
    (ctx.handles.length ≤ st.fonts.length → st1.fonts.getD idx none = some pair) := by
  simp only [loadPair] at h
  split at h
  · rename_i hlt
    split at h
    · rename_i q hq
      injection h with h1
      injection h1 with hp hs
      subst hp; subst hs
      exact ⟨rfl, rfl, rfl, fun k q h => h, fun _ => hq⟩
    · rename_i hq
      injection h with h1
      injection h1 with hp hs
      subst hp; subst hs
      refine ⟨rfl, rfl, by simp, ?_, ?_⟩
      · intro k q hk
        by_cases hik : idx = k
        · subst hik; rw [hq] at hk; exact absurd hk (by simp)
        · rw [getD_set_ne hik]; exact hk
      · intro hwf
        exact getD_set_self (Nat.lt_of_lt_of_le hlt hwf) _
  · simp at h

/-- Specification of the slot-selection loop, stated about the fueled
body: it preserves the state apart from materializing pairs, fails only
past the stack, and on success lands on a slot at or after the start,
inside the stack, that either matches a requested presentation or is the
last slot; the returned pair is the one stored at that slot. -/
theorem selectSlotGo_spec (ctx : Ctx) (pres : Option Presentation) :
    ∀ fuel idx st st1 res, ctx.handles.length ≤ idx + fuel →
      selectSlotGo ctx pres fuel idx st = (st1, res) →
      (st1.no_glyphs = st.no_glyphs ∧ st1.cache = st.cache ∧
       st1.fonts.length = st.fonts.length ∧
       (∀ k q, st.fonts.getD k none = some q → st1.fonts.getD k none = some q)) ∧
      (res = none → st1 = st ∧ ctx.handles.length ≤ idx) ∧
      (∀ j pair, res = some (j, pair) →
        idx ≤ j ∧ j < ctx.handles.length ∧
        (∀ p, pres = some p → pair.presentation = p ∨ j + 1 = ctx.handles.length) ∧
        (ctx.handles.length ≤ st.fonts.length → st1.fonts.getD j none = some pair)) := by
  intro fuel
  induction fuel with
  | zero =>
    intro idx st st1 res hle h
    rw [selectSlotGo] at h
    injection h with h1 h2
    subst h1; subst h2
    refine ⟨⟨rfl, rfl, rfl, fun k q h => h⟩, fun _ => ⟨rfl, by omega⟩, ?_⟩
    intro j pair hjp
    simp at hjp
  | succ n ih =>
    intro idx st st1 res hle h
    rw [selectSlotGo] at h
    cases hl : loadPair ctx st idx with
    | none =>
      rw [hl] at h
      injection h with h1 h2
      subst h1; subst h2
      have hN := loadPair_none_iff.mp hl
      refine ⟨⟨rfl, rfl, rfl, fun k q h => h⟩, fun _ => ⟨rfl, hN⟩, ?_⟩
      intro j pair hjp
      simp at hjp
    | some x =>
      obtain ⟨pair0, stm⟩ := x
      have hlt : idx < ctx.handles.length := loadPair_lt hl
      have hload := loadPair_some_spec hl
      rw [hl] at h
      -- the three ways the loop can stop at the current slot share a proof
      have stop_case : (st1, res) = (stm, some (idx, pair0)) →
          (pres = none ∨ (∀ p, pres = some p → pair0.presentation = p) ∨
            ¬ idx + 1 < ctx.handles.length) →
          (st1.no_glyphs = st.no_glyphs ∧ st1.cache = st.cache ∧
           st1.fonts.length = st.fonts.length ∧
           (∀ k q, st.fonts.getD k none = some q → st1.fonts.getD k none = some q)) ∧
          (res = none → st1 = st ∧ ctx.handles.length ≤ idx) ∧
          (∀ j pair, res = some (j, pair) →
            idx ≤ j ∧ j < ctx.handles.length ∧
            (∀ p, pres = some p → pair.presentation = p ∨ j + 1 = ctx.handles.length) ∧
            (ctx.handles.length ≤ st.fonts.length → st1.fonts.getD j none = some pair)) := by
        intro hh hstop
        injection hh with h1 h2
        subst h1; subst h2
        refine ⟨⟨hload.1, hload.2.1, hload.2.2.1, hload.2.2.2.1⟩, by simp, ?_⟩
        intro j pair hjp
        injection hjp with hjp
        injection hjp with hj hp
        subst hj; subst hp
        refine ⟨Nat.le_refl _, hlt, ?_, fun hwf => hload.2.2.2.2 hwf⟩
        intro p hpres
        rcases hstop with hc | hc | hc
        · rw [hpres] at hc; exact absurd hc (by simp)
        · exact Or.inl (hc p hpres)
        · right; omega
      cases pres with
      | none =>
        have h2 : ((stm, some (idx, pair0)) : St × Option (Nat × FontPair)) = (st1, res) := h
        exact stop_case h2.symm (Or.inl rfl)
      | some p =>
        have h2 : (if idx + 1 < ctx.handles.length then
                     (if pair0.presentation ≠ p then selectSlotGo ctx (some p) n (idx + 1) stm
                      else (stm, some (idx, pair0)))
                   else (stm, some (idx, pair0))) = (st1, res) := h
        by_cases hlast : idx + 1 < ctx.handles.length
        · rw [if_pos hlast] at h2
          by_cases hmatch : pair0.presentation ≠ p
          · rw [if_pos hmatch] at h2
            have hrec := ih (idx + 1) stm st1 res (by omega) h2
            refine ⟨?_, ?_, ?_⟩
            · obtain ⟨⟨a1, a2, a3, a4⟩, -, -⟩ := hrec
              exact ⟨a1.trans hload.1, a2.trans hload.2.1,
                a3.trans hload.2.2.1, fun k q hk => a4 k q (hload.2.2.2.1 k q hk)⟩
            · intro hn
              obtain ⟨-, hz, -⟩ := hrec
              obtain ⟨hst, hge⟩ := hz hn
              exact ⟨False.elim (by omega), by omega⟩
            · intro j pair hjp
              obtain ⟨-, -, h3⟩ := hrec
              obtain ⟨b1, b2, b3, b4⟩ := h3 j pair hjp
              refine ⟨by omega, b2, b3, ?_⟩
              intro hwf
              exact b4 (by omega)
          · rw [if_neg hmatch] at h2
            push_neg at hmatch
            exact stop_case h2.symm (Or.inr (Or.inl (fun q hq => by
              injection hq with hq; rw [← hq]; exact hmatch)))
        · rw [if_neg hlast] at h2
          exact stop_case h2.symm (Or.inr (Or.inr hlast))

/-- The specification transported to `selectSlot` itself. -/
theorem selectSlot_spec (ctx : Ctx) (pres : Option Presentation) :
    ∀ idx st st1 res, selectSlot ctx pres idx st = (st1, res) →
      (st1.no_glyphs = st.no_glyphs ∧ st1.cache = st.cache ∧
       st1.fonts.length = st.fonts.length ∧
       (∀ k q, st.fonts.getD k none = some q → st1.fonts.getD k none = some q)) ∧
      (res = none → st1 = st ∧ ctx.handles.length ≤ idx) ∧
      (∀ j pair, res = some (j, pair) →
        idx ≤ j ∧ j < ctx.handles.length ∧
        (∀ p, pres = some p → pair.presentation = p ∨ j + 1 = ctx.handles.length) ∧
        (ctx.handles.length ≤ st.fonts.length → st1.fonts.getD j none = some pair)) := by
  intro idx st st1 res h
  exact selectSlotGo_spec ctx pres (ctx.handles.length + 1 - idx) idx st st1 res
    (by omega) h

/-! ## Concrete contexts used by witnesses and counterexamples -/

def fmZero : FontMetrics := ⟨0, 0, 0, 0, 0, Presentation.text⟩

/-- An empty font stack. -/
def ctxE : Ctx :=
  ⟨[], fun _ _ => [], fun _ => 1, fun _ _ _ => 1, fun _ _ _ => fmZero,
    charSeg, fun t => t.length⟩

/-- Two text-presentation slots with a trivial backend. -/
def ctx3 : Ctx :=
  ⟨[false, false], fun _ _ => [], fun _ => 1, fun _ _ _ => 1, fun _ _ _ => fmZero,
    charSeg, fun t => t.length⟩

/-- C7: whenever the slot index reaches or exceeds the stack length, no
pair can be loaded, every codepoint of the sub-run is appended to
`no_glyphs`, and the call fails with `NoMoreFallbacks` carrying the
sub-run text; in particular `shape` on an empty stack always fails this
way (witnessed by `C7_witness`). -/
theorem C7_exhausted_fallbacks (ctx : Ctx) (fuel idx : Nat) (s : Str) (st : St)
    (pres : Option Presentation) (h : ctx.handles.length ≤ idx) :
    do_shape ctx (fuel + 1) idx s st pres =
      ({ st with no_glyphs := st.no_glyphs ++ s },
        Except.error (Err.noMoreFallbacks s)) := by
  have hsel : selectSlot ctx pres idx st = (st, none) := by
    rw [selectSlot]
    rcases hna : ctx.handles.length + 1 - idx with _ | n
    · rw [selectSlotGo]
    · rw [selectSlotGo, loadPair_none_iff.mpr h]
  rw [do_shape, hsel]

/-- Witness for C7: an empty stack makes `shape` fail with
`NoMoreFallbacks` and records the whole text in `no_glyphs`. -/
theorem C7_witness :
    ctxE.handles.length ≤ 0 ∧
    shape ctxE 3 ['x'] (St.init ctxE) none =
      ({ St.init ctxE with no_glyphs := (St.init ctxE).no_glyphs ++ ['x'] },
        Except.error (Err.noMoreFallbacks ['x'])) :=
  ⟨by decide, C7_exhausted_fallbacks ctxE 2 0 ['x'] (St.init ctxE) none (by decide)⟩

/-- C3: with a requested presentation, slot selection always succeeds from
an in-range start index and the chosen slot either matches the requested
presentation or is the last slot of the stack; skipping never advances
past the last slot. -/
theorem C3_presentation_last_resort (ctx : Ctx) (p : Presentation) (idx : Nat)
    (st : St) (h : idx < ctx.handles.length) :
    ∃ st1 j pair, selectSlot ctx (some p) idx st = (st1, some (j, pair)) ∧
      idx ≤ j ∧ j < ctx.handles.length ∧
      (pair.presentation = p ∨ j + 1 = ctx.handles.length) := by
  rcases hsel : selectSlot ctx (some p) idx st with ⟨st1, res⟩
  have hspec := selectSlot_spec ctx (some p) idx st st1 res hsel
  cases res with
  | none =>
    obtain ⟨-, h2, -⟩ := hspec
    obtain ⟨-, hge⟩ := h2 rfl
    omega
  | some jp =>
    obtain ⟨j, pair⟩ := jp
    obtain ⟨-, -, h3⟩ := hspec
    obtain ⟨b1, b2, b3, -⟩ := h3 j pair rfl
    exact ⟨st1, j, pair, rfl, b1, b2, b3 p rfl⟩

/-- Witness for C3: on a two-slot all-text stack, requesting emoji lands
on the last slot. -/
theorem C3_witness :
    0 < ctx3.handles.length ∧
    (∃ st1 j pair,
      selectSlot ctx3 (some Presentation.emoji) 0 (St.init ctx3) = (st1, some (j, pair)) ∧
      0 ≤ j ∧ j < ctx3.handles.length ∧
      (pair.presentation = Presentation.emoji ∨ j + 1 = ctx3.handles.length)) :=
  ⟨by decide,
    C3_presentation_last_resort ctx3 Presentation.emoji 0 (St.init ctx3) (by decide)⟩

/-! ## C8: the replacement-string synthesizer -/

theorem make_question_string_eq (G : Str → List Str) (s : Str) :
    make_question_string G s =
      List.replicate (G s).length (if is_question_string s then '?' else replChar) := by
  rw [make_question_string]
  congr 1
  by_cases hq : is_question_string s <;> simp [hq]

/-- C8 counterexample: the empty string consists of `U+FFFD` vacuously,
and the synthesizer maps it to itself — an output that again consists of
`U+FFFD` — so the claim's "never again consists of U+FFFD / never maps a
string back to itself" fails at the explicit input `""`. -/
theorem C8_counterexample :
    is_question_string [] = true ∧
    make_question_string charSeg [] = ([] : Str) ∧
    is_question_string (make_question_string charSeg []) = true :=
  ⟨rfl, rfl, rfl⟩

/-- C8 (amended): the synthesizer returns one character per grapheme of
`s`, each `'?'` when `s` consists entirely of `U+FFFD` and `U+FFFD`
otherwise; and for nonempty `s` the output never equals `s`, and on a
nonempty all-`U+FFFD` input it contains a character that is not `U+FFFD`
(the empty string, by contrast, is mapped to itself). -/
theorem C8_amended (G : Str → List Str) (hseg : SegOK G) (s : Str) :
    (make_question_string G s).length = (G s).length ∧
    (∀ c ∈ make_question_string G s,
      c = if is_question_string s then '?' else replChar) ∧
    (s ≠ [] → make_question_string G s ≠ s ∧
      (is_question_string s = true →
        ∃ c, c ∈ make_question_string G s ∧ c ≠ replChar)) := by
  rw [make_question_string_eq]
  refine ⟨by simp, ?_, ?_⟩
  · intro c hc
    exact List.eq_of_mem_replicate hc
  · intro hne
    have hGne : G s ≠ [] := by
      intro hG
      have hj := hseg.join_eq s
      rw [hG] at hj
      exact hne hj.symm
    have hlen : 0 < (G s).length := List.length_pos.mpr hGne
    constructor
    · intro heq
      obtain ⟨x, hx⟩ := List.exists_mem_of_ne_nil s hne
      have hxc : x = (if is_question_string s then '?' else replChar) := by
        rw [← heq] at hx
        exact List.eq_of_mem_replicate hx
      by_cases hq : is_question_string s
      · have hxr : x = replChar := by
          have := List.all_eq_true.mp hq x hx
          simpa using this
        rw [if_pos hq] at hxc
        rw [hxc] at hxr
        exact absurd hxr (by decide)
      · apply hq
        rw [if_neg hq] at hxc
        rw [is_question_string, List.all_eq_true]
        intro y hy
        have hyc : y = replChar := by
          rw [← heq] at hy
          have := List.eq_of_mem_replicate hy
          rw [if_neg hq] at this
          exact this
        simp [hyc]
    · intro hq
      rw [if_pos hq]
      refine ⟨'?', ?_, by decide⟩
      exact List.mem_replicate.mpr ⟨by omega, rfl⟩

/-- Witness for C8 (amended), at the one-character all-replacement input. -/
theorem C8_witness :
    SegOK charSeg ∧
    ((make_question_string charSeg [replChar]).length = (charSeg [replChar]).length ∧
     (∀ c ∈ make_question_string charSeg [replChar],
       c = if is_question_string [replChar] then '?' else replChar) ∧
     ([replChar] ≠ ([] : Str) → make_question_string charSeg [replChar] ≠ [replChar] ∧
       (is_question_string [replChar] = true →
         ∃ c, c ∈ make_question_string charSeg [replChar] ∧ c ≠ replChar))) :=
  ⟨charSeg_ok, C8_amended charSeg charSeg_ok [replChar]⟩

/-! ## Unfolding and preservation machinery for the driver -/

theorem strExt_refl (a : Str) : strExt a a := ⟨[], by simp⟩

theorem strExt_trans {a b c : Str} (h1 : strExt a b) (h2 : strExt b c) :
    strExt a c := by
  obtain ⟨t1, h1⟩ := h1
  obtain ⟨t2, h2⟩ := h2
  exact ⟨t1 ++ t2, by rw [h2, h1, List.append_assoc]⟩

theorem strExt_append (a t : Str) : strExt a (a ++ t) := ⟨t, rfl⟩

theorem evictStep_no_glyphs (b : Bool) (j d : Nat) (st : St) :
    (evictStep b j d st).no_glyphs = st.no_glyphs := by
  rw [evictStep]
  split
  · rfl
  · split
    · rfl
    · split <;> rfl

theorem evictStep_cache (b : Bool) (j d : Nat) (st : St) :
    (evictStep b j d st).cache = st.cache := by
  rw [evictStep]
  split
  · rfl
  · split
    · rfl
    · split <;> rfl

/-- One-step unfolding of `do_shape` when slot selection fails. -/
theorem do_shape_succ_none (ctx : Ctx) {fuel idx : Nat} {s : Str} {st st1 : St}
    {pres : Option Presentation}
    (hsel : selectSlot ctx pres idx st = (st1, none)) :
    do_shape ctx (fuel + 1) idx s st pres =
      ({ st1 with no_glyphs := st1.no_glyphs ++ s },
        Except.error (Err.noMoreFallbacks s)) := by
  rw [do_shape, hsel]

/-- One-step unfolding of `do_shape` when slot selection lands on `j`. -/
theorem do_shape_succ_some (ctx : Ctx) {fuel idx : Nat} {s : Str} {st st1 : St}
    {pres : Option Presentation} {j : Nat} {pair : FontPair}
    (hsel : selectSlot ctx pres idx st = (st1, some (j, pair))) :
    do_shape ctx (fuel + 1) idx s st pres =
      (if j > 0 ∧ j + 1 = ctx.handles.length then
        if pres.isSome then
          do_shape ctx fuel idx s { st1 with no_glyphs := st1.no_glyphs ++ s } none
        else shapeTail ctx (do_shape ctx fuel) j pair.shaped_any s
          { st1 with no_glyphs := st1.no_glyphs ++ s } pres
      else shapeTail ctx (do_shape ctx fuel) j pair.shaped_any s st1 pres) := by
  rw [do_shape, hsel]

/-- The per-cluster loop respects any reflexive transitive relation on
states that every recursive call respects. -/
theorem processClusters_rel (R : St → St → Prop) (hrefl : ∀ st, R st st)
    (htrans : ∀ a b c, R a b → R b c → R a c) (ctx : Ctx)
    (recurse : Nat → Str → St → Option Presentation → St × Except Err (List GlyphInfo))
    (hrec : ∀ i t st pres, R st (recurse i t st pres).1)
    (j : Nat) (cellw : ℚ) (s : Str) (pres : Option Presentation) :
    ∀ Gs st, R st (processClusters ctx recurse j cellw s pres Gs st).1 := by
  intro Gs
  induction Gs with
  | nil => intro st; exact hrefl st
  | cons infos rest ih =>
    intro st
    simp only [processClusters]
    split
    · -- incomplete cluster: recurse, maybe retry with the question string
      rcases h1 : recurse (j + 1) (byteSlice s (startOf infos) (sumLen infos)) st pres
        with ⟨st1, r1⟩
      have hst1 : R st st1 := by
        have hx := hrec (j + 1) (byteSlice s (startOf infos) (sumLen infos)) st pres
        rw [h1] at hx
        exact hx
      rcases r1 with e | sh
      · simp only
        rcases h2 : recurse 0 (make_question_string ctx.graphemes
            (byteSlice s (startOf infos) (sumLen infos))) st1 pres with ⟨st2, r2⟩
        have hst2 : R st1 st2 := by
          have hx := hrec 0 (make_question_string ctx.graphemes
            (byteSlice s (startOf infos) (sumLen infos))) st1 pres
          rw [h2] at hx
          exact hx
        rcases r2 with e2 | sh2
        · exact htrans _ _ _ hst1 hst2
        · simp only
          rcases h3 : processClusters ctx recurse j cellw s pres rest st2 with ⟨st3, r3⟩
          have hst3 : R st2 st3 := by
            have hx := ih st2
            rw [h3] at hx
            exact hx
          rcases r3 with e3 | p3
          · exact htrans _ _ _ hst1 (htrans _ _ _ hst2 hst3)
          · obtain ⟨gs, d⟩ := p3
            exact htrans _ _ _ hst1 (htrans _ _ _ hst2 hst3)
      · simp only
        rcases h3 : processClusters ctx recurse j cellw s pres rest st1 with ⟨st3, r3⟩
        have hst3 : R st1 st3 := by
          have hx := ih st1
          rw [h3] at hx
          exact hx
        rcases r3 with e3 | p3
        · exact htrans _ _ _ hst1 hst3
        · obtain ⟨gs, d⟩ := p3
          exact htrans _ _ _ hst1 hst3
    · -- fully-mapped cluster: direct emission leaves the state unchanged
      rcases h3 : processClusters ctx recurse j cellw s pres rest st with ⟨st3, r3⟩
      have hst3 : R st st3 := by
        have hx := ih st
        rw [h3] at hx
        exact hx
      rcases r3 with e3 | p3
      · exact hst3
      · obtain ⟨gs, d⟩ := p3
        exact hst3

/-- `do_shape` only ever appends to `no_glyphs`. -/
theorem do_shape_no_glyphs_ext (ctx : Ctx) :
    ∀ fuel idx s st pres,
      strExt st.no_glyphs (do_shape ctx fuel idx s st pres).1.no_glyphs := by
  intro fuel
  induction fuel with
  | zero => intro idx s st pres; exact strExt_refl _
  | succ n ih =>
    intro idx s st pres
    rcases hsel : selectSlot ctx pres idx st with ⟨st1, res⟩
    have hng1 : st1.no_glyphs = st.no_glyphs :=
      (selectSlot_spec ctx pres idx st st1 res hsel).1.1
    have tail_ext : ∀ j b st0, strExt st0.no_glyphs
        (shapeTail ctx (do_shape ctx n) j b s st0 pres).1.no_glyphs := by
      intro j b st0
      rw [shapeTail]
      rcases h3 : processClusters ctx (do_shape ctx n) j (ctx.cellWidth j) s pres
          (buildClusters (withNext (utf8Len s) (ctx.backend j s))) st0 with ⟨st2, r2⟩
      have hst2 : strExt st0.no_glyphs st2.no_glyphs := by
        have hx := processClusters_rel (fun a b => strExt a.no_glyphs b.no_glyphs)
          (fun st => strExt_refl _) (fun a b c => strExt_trans) ctx
          (do_shape ctx n) (fun i t st pres => ih i t st pres) j (ctx.cellWidth j)
          s pres (buildClusters (withNext (utf8Len s) (ctx.backend j s))) st0
        rw [h3] at hx
        exact hx
      rcases r2 with e2 | p2
      · exact hst2
      · obtain ⟨gs, d⟩ := p2
        simp only
        rw [evictStep_no_glyphs]
        exact hst2
    cases res with
    | none =>
      rw [do_shape_succ_none ctx hsel]
      simp only
      rw [← hng1]
      exact strExt_append _ _
    | some jp =>
      obtain ⟨j, pair⟩ := jp
      rw [do_shape_succ_some ctx hsel]
      by_cases hj : j > 0 ∧ j + 1 = ctx.handles.length
      · rw [if_pos hj]
        by_cases hp : pres.isSome
        · rw [if_pos hp]
          have h1 : strExt st.no_glyphs (st1.no_glyphs ++ s) := by
            rw [hng1]; exact strExt_append _ _
          exact strExt_trans h1
            (ih idx s { st1 with no_glyphs := st1.no_glyphs ++ s } none)
        · rw [if_neg hp]
          have h1 : strExt st.no_glyphs (st1.no_glyphs ++ s) := by
            rw [hng1]; exact strExt_append _ _
          exact strExt_trans h1 (tail_ext j pair.shaped_any _)
      · rw [if_neg hj]
        rw [← hng1]
        exact tail_ext j pair.shaped_any st1

/-- The tail of a shaping call only appends to `no_glyphs`. -/
theorem shapeTail_no_glyphs_ext (ctx : Ctx) (fuel j : Nat) (b : Bool) (s : Str)
    (st0 : St) (pres : Option Presentation) :
    strExt st0.no_glyphs (shapeTail ctx (do_shape ctx fuel) j b s st0 pres).1.no_glyphs := by
  rw [shapeTail]
  rcases h3 : processClusters ctx (do_shape ctx fuel) j (ctx.cellWidth j) s pres
      (buildClusters (withNext (utf8Len s) (ctx.backend j s))) st0 with ⟨st2, r2⟩
  have hst2 : strExt st0.no_glyphs st2.no_glyphs := by
    have hx := processClusters_rel (fun a b => strExt a.no_glyphs b.no_glyphs)
      (fun st => strExt_refl _) (fun a b c => strExt_trans) ctx
      (do_shape ctx fuel) (fun i t st pres => do_shape_no_glyphs_ext ctx fuel i t st pres)
      j (ctx.cellWidth j) s pres
      (buildClusters (withNext (utf8Len s) (ctx.backend j s))) st0
    rw [h3] at hx
    exact hx
  rcases r2 with e2 | p2
  · exact hst2
  · obtain ⟨gs, d⟩ := p2
    simp only
    rw [evictStep_no_glyphs]
    exact hst2

/-- C4: when `do_shape` shapes at the last slot of a multi-slot stack and
that slot is not slot 0, every codepoint of the sub-run is appended to
`no_glyphs`; and if an explicit presentation was requested, the call
returns exactly the result of re-invoking `do_shape` at the remembered
initial index with no presentation, on the accumulated state. -/
theorem C4_last_resort_bookkeeping (ctx : Ctx) (fuel idx : Nat) (s : Str)
    (st st1 : St) (j : Nat) (pair : FontPair) (pres : Option Presentation)
    (hsel : selectSlot ctx pres idx st = (st1, some (j, pair)))
    (hj0 : 0 < j) (hjlast : j + 1 = ctx.handles.length) :
    strExt (st.no_glyphs ++ s) (do_shape ctx (fuel + 1) idx s st pres).1.no_glyphs ∧
    (pres.isSome → do_shape ctx (fuel + 1) idx s st pres =
      do_shape ctx fuel idx s { st1 with no_glyphs := st1.no_glyphs ++ s } none) := by
  have hng1 : st1.no_glyphs = st.no_glyphs :=
    (selectSlot_spec ctx pres idx st st1 (some (j, pair)) hsel).1.1
  rw [do_shape_succ_some ctx hsel, if_pos ⟨hj0, hjlast⟩]
  constructor
  · by_cases hp : pres.isSome
    · rw [if_pos hp]
      have hx : strExt (st1.no_glyphs ++ s)
          (do_shape ctx fuel idx s { st1 with no_glyphs := st1.no_glyphs ++ s }
            none).1.no_glyphs :=
        do_shape_no_glyphs_ext ctx fuel idx s _ none
      rw [← hng1]
      exact hx
    · rw [if_neg hp]
      have hx : strExt (st1.no_glyphs ++ s)
          (shapeTail ctx (do_shape ctx fuel) j pair.shaped_any s
            { st1 with no_glyphs := st1.no_glyphs ++ s } pres).1.no_glyphs :=
        shapeTail_no_glyphs_ext ctx fuel j pair.shaped_any s _ pres
      rw [← hng1]
      exact hx
  · intro hp
    rw [if_pos hp]

/-- State of a two-slot stack after both slots are materialized. -/
def stW4 : St :=
  ⟨[some ⟨false, Presentation.text⟩, some ⟨false, Presentation.text⟩], [], []⟩

/-- Witness for C4: requesting emoji on a two-slot all-text stack shapes
at the last slot; the codepoints land in `no_glyphs` and the call restarts
without a presentation. -/
theorem C4_witness :
    selectSlot ctx3 (some Presentation.emoji) 0 (St.init ctx3) =
      (stW4, some (1, ⟨false, Presentation.text⟩)) ∧
    0 < 1 ∧ 1 + 1 = ctx3.handles.length ∧
    (strExt ((St.init ctx3).no_glyphs ++ ['x'])
      (do_shape ctx3 3 0 ['x'] (St.init ctx3) (some Presentation.emoji)).1.no_glyphs ∧
     ((some Presentation.emoji).isSome →
       do_shape ctx3 3 0 ['x'] (St.init ctx3) (some Presentation.emoji) =
         do_shape ctx3 2 0 ['x'] { stW4 with no_glyphs := stW4.no_glyphs ++ ['x'] } none)) :=
  ⟨by decide, by decide, by decide,
    C4_last_resort_bookkeeping ctx3 2 0 ['x'] (St.init ctx3) stW4 1
      ⟨false, Presentation.text⟩ (some Presentation.emoji) (by decide) (by decide)
      (by decide)⟩

/-! ## C2: the Step 6 carving rule, stated from the specification -/

/-- Carving length as the specification words it: take `nom` bytes iff
`nom > 0` and the endpoint falls on a UTF-8 boundary; else one grapheme;
else the (empty) remainder. -/
def specCarveLen (G : Str → List Str) (substr : Str) (cellw : ℚ) (next_idx : Nat)
    (xadv : Int) : Nat :=
  let nom := nomWidth xadv cellw
  if 0 < nom ∧ isBoundary substr (next_idx + nom) = true then nom
  else
    match G (byteDrop substr next_idx) with
    | g :: _ => utf8Len g
    | [] => 0

/-- Step 6 emission as the specification words it: emit only glyphs with
non-zero advance, carve by `specCarveLen`, and label an empty carve with
the placeholder text. -/
def specEmitRun (ctx : Ctx) (j : Nat) (cellw : ℚ) (substr : Str) :
    List Info → Nat → List GlyphInfo
  | [], _ => []
  | info :: rest, next_idx =>
    if info.x_advance = 0 then specEmitRun ctx j cellw substr rest next_idx
    else
      let len := specCarveLen ctx.graphemes substr cellw next_idx info.x_advance
      let glyph :=
        if len = 0 then make_glyphinfo ctx ['_', '_'] j info
        else make_glyphinfo ctx (byteTake (byteDrop substr next_idx) len) j info
      glyph :: specEmitRun ctx j cellw substr rest (next_idx + len)

theorem segOK_nil_of_eq {G : Str → List Str} (hseg : SegOK G) {r : Str}
    (h : G r = []) : r = [] := by
  have hj := hseg.join_eq r
  rw [h] at hj
  exact hj.symm

theorem carveLen_eq_spec {G : Str → List Str} (hseg : SegOK G) (substr : Str)
    (cellw : ℚ) (next_idx : Nat) (xadv : Int) :
    carveLen G substr cellw next_idx xadv =
      specCarveLen G substr cellw next_idx xadv := by
  rw [carveLen, specCarveLen]
  by_cases hc : nomWidth xadv cellw = 0 ∨
      ¬ isBoundary substr (next_idx + nomWidth xadv cellw) = true
  · rw [if_pos hc, if_neg (fun h => by
      rcases hc with hc | hc
      · omega
      · exact hc h.2)]
    rcases hG : G (byteDrop substr next_idx) with _ | ⟨g, gs⟩
    · have hr := segOK_nil_of_eq hseg hG
      rw [hr]
      rfl
    · rfl
  · push_neg at hc
    rw [if_neg (fun h => by
        rcases h with h | h
        · exact absurd h (by omega)
        · exact h hc.2),
      if_pos ⟨Nat.pos_of_ne_zero hc.1, hc.2⟩]

theorem make_glyphinfo_x_advance (ctx : Ctx) (T : Str) (j : Nat) (info : Info) :
    (make_glyphinfo ctx T j info).x_advance = (info.x_advance : ℚ) / 64 := rfl

theorem xadv_pixels_ne_zero {x : Int} (h : x ≠ 0) : ((x : ℚ) / 64) ≠ 0 := by
  rw [div_ne_zero_iff]
  constructor
  · exact_mod_cast h
  · norm_num

/-- C2: on a fully-mapped cluster, the emission loop agrees exactly with
the specification's carving rule under the grapheme-segmenter contract:
only glyphs with non-zero `x_advance` are emitted, the carved length is
`nom` exactly when `nom > 0` and the endpoint is a UTF-8 boundary of the
fragment, otherwise the first grapheme of the remainder, otherwise zero
(the empty remainder), in which case the glyph carries the placeholder
text. -/
theorem C2_step6_emission (ctx : Ctx) (hseg : SegOK ctx.graphemes) (j : Nat)
    (cellw : ℚ) (substr : Str) :
    ∀ infos next_idx,
      emitRun ctx j cellw substr infos next_idx =
        specEmitRun ctx j cellw substr infos next_idx := by
  intro infos
  induction infos with
  | nil => intro next_idx; rfl
  | cons info rest ih =>
    intro next_idx
    rw [emitRun, specEmitRun]
    by_cases hz : info.x_advance = 0
    · rw [if_pos hz, if_pos hz]
      exact ih next_idx
    · rw [if_neg hz, if_neg hz]
      simp only
      rw [carveLen_eq_spec hseg]
      have hgate : ∀ T, (make_glyphinfo ctx T j info).x_advance ≠ 0 := by
        intro T
        rw [make_glyphinfo_x_advance]
        exact xadv_pixels_ne_zero hz
      by_cases hL : specCarveLen ctx.graphemes substr cellw next_idx info.x_advance = 0
      · rw [hL]
        rw [if_neg (show ¬ (0 : Nat) < 0 from by omega)]
        rw [if_pos (show (0 : Nat) = 0 from rfl)]
        rw [if_pos (hgate ['_', '_'])]
        rw [ih]
      · rw [if_pos (show
            0 < specCarveLen ctx.graphemes substr cellw next_idx info.x_advance from
            Nat.pos_of_ne_zero hL)]
        rw [if_neg hL]
        rw [if_pos (hgate (byteTake (byteDrop substr next_idx)
          (specCarveLen ctx.graphemes substr cellw next_idx info.x_advance)))]
        rw [ih]

/-- Witness for C2 at a concrete cluster: one glyph with advance 64 and a
zero-advance mark over the fragment "ab". -/
theorem C2_witness :
    SegOK ctx3.graphemes ∧
    emitRun ctx3 0 1 ['a', 'b'] [⟨0, 2, 7, 64, 0, 0, 0⟩, ⟨0, 0, 8, 0, 0, 0, 0⟩] 0 =
      specEmitRun ctx3 0 1 ['a', 'b'] [⟨0, 2, 7, 64, 0, 0, 0⟩, ⟨0, 0, 8, 0, 0, 0, 0⟩] 0 :=
  ⟨charSeg_ok,
    C2_step6_emission ctx3 charSeg_ok 0 1 ['a', 'b']
      [⟨0, 2, 7, 64, 0, 0, 0⟩, ⟨0, 0, 8, 0, 0, 0, 0⟩] 0⟩

/-! ## C10: the carving loop stays on boundaries -/

/-- The `(next_idx, len)` trace of the Step 6 carving loop: the byte
ranges sliced out of the cluster fragment. -/
def carveSteps (G : Str → List Str) (cellw : ℚ) (substr : Str) :
    List Info → Nat → List (Nat × Nat)
  | [], _ => []
  | info :: rest, next_idx =>
    if info.x_advance = 0 then carveSteps G cellw substr rest next_idx
    else
      let len := carveLen G substr cellw next_idx info.x_advance
      (next_idx, len) :: carveSteps G cellw substr rest (next_idx + len)

/-- One carving step starting on a boundary ends on a boundary. -/
theorem carveLen_boundary {G : Str → List Str} (hseg : SegOK G) {substr : Str}
    {next_idx : Nat} (h : isBoundary substr next_idx = true) (cellw : ℚ)
    (xadv : Int) :
    isBoundary substr (next_idx + carveLen G substr cellw next_idx xadv) = true := by
  rw [carveLen]
  by_cases hc : nomWidth xadv cellw = 0 ∨
      ¬ isBoundary substr (next_idx + nomWidth xadv cellw) = true
  · rw [if_pos hc]
    rcases hG : G (byteDrop substr next_idx) with _ | ⟨g, gs⟩
    · rw [utf8Len_byteDrop h]
      have hle := isBoundary_le h
      have harith : next_idx + (utf8Len substr - next_idx) = utf8Len substr := by omega
      rw [harith]
      exact isBoundary_utf8Len substr
    · have hjoin := hseg.join_eq (byteDrop substr next_idx)
      rw [hG] at hjoin
      have hpref : byteDrop substr next_idx = g ++ gs.flatten := by
        rw [← hjoin]
        simp
      have hb : isBoundary (byteDrop substr next_idx) (utf8Len g) = true := by
        rw [hpref]
        exact isBoundary_append_left g gs.flatten
      rw [← isBoundary_byteDrop h (utf8Len g)]
      exact hb
  · rw [if_neg hc]
    push_neg at hc
    exact hc.2

/-- C10: starting from a boundary, every `(next_idx, len)` pair of the
carving loop has both endpoints on UTF-8 boundaries of the fragment and
inside its byte length, so the two slices the loop takes are always in
bounds; moreover every glyph the loop emits carries either such a slice
or the placeholder text. -/
theorem C10_carving_in_bounds (ctx : Ctx) (hseg : SegOK ctx.graphemes) (j : Nat)
    (cellw : ℚ) (substr : Str) :
    ∀ infos b, isBoundary substr b = true →
      (∀ pl ∈ carveSteps ctx.graphemes cellw substr infos b,
        isBoundary substr pl.1 = true ∧ isBoundary substr (pl.1 + pl.2) = true ∧
        pl.1 + pl.2 ≤ utf8Len substr) ∧
      (∀ g ∈ emitRun ctx j cellw substr infos b,
        g.text = ['_', '_'] ∨
        ∃ pl ∈ carveSteps ctx.graphemes cellw substr infos b,
          0 < pl.2 ∧ g.text = byteTake (byteDrop substr pl.1) pl.2) := by
  intro infos
  induction infos with
  | nil =>
    intro b hb
    constructor
    · intro pl hpl
      simp [carveSteps] at hpl
    · intro g hg
      simp [emitRun] at hg
  | cons info rest ih =>
    intro b hb
    by_cases hz : info.x_advance = 0
    · rw [carveSteps, emitRun, if_pos hz, if_pos hz]
      exact ih b hb
    · rw [carveSteps, emitRun, if_neg hz, if_neg hz]
      simp only
      have hend : isBoundary substr (b + carveLen ctx.graphemes substr cellw b
          info.x_advance) = true := carveLen_boundary hseg hb cellw info.x_advance
      have hrest := ih (b + carveLen ctx.graphemes substr cellw b info.x_advance) hend
      have tailcase : ∀ g, g ∈ emitRun ctx j cellw substr rest
          (b + carveLen ctx.graphemes substr cellw b info.x_advance) →
          g.text = ['_', '_'] ∨
          ∃ pl ∈ (b, carveLen ctx.graphemes substr cellw b info.x_advance) ::
            carveSteps ctx.graphemes cellw substr rest
              (b + carveLen ctx.graphemes substr cellw b info.x_advance),
            0 < pl.2 ∧ g.text = byteTake (byteDrop substr pl.1) pl.2 := by
        intro g hg2
        rcases hrest.2 g hg2 with h | ⟨pl, hpl, hpos, htext⟩
        · exact Or.inl h
        · exact Or.inr ⟨pl, List.mem_cons_of_mem _ hpl, hpos, htext⟩
      constructor
      · intro pl hpl
        rcases List.mem_cons.mp hpl with hpl | hpl
        · subst hpl
          exact ⟨hb, hend, isBoundary_le hend⟩
        · exact hrest.1 pl hpl
      · intro g hg
        by_cases hL : 0 < carveLen ctx.graphemes substr cellw b info.x_advance
        · rw [if_pos hL] at hg
          by_cases hgate : (make_glyphinfo ctx (byteTake (byteDrop substr b)
              (carveLen ctx.graphemes substr cellw b info.x_advance)) j
              info).x_advance ≠ 0
          · rw [if_pos hgate] at hg
            rcases List.mem_cons.mp hg with hgeq | hg2
            · subst hgeq
              exact Or.inr ⟨(b, carveLen ctx.graphemes substr cellw b info.x_advance),
                List.mem_cons_self _ _, hL, rfl⟩
            · exact tailcase g hg2
          · rw [if_neg hgate] at hg
            exact tailcase g hg
        · rw [if_neg hL] at hg
          by_cases hgate : (make_glyphinfo ctx ['_', '_'] j info).x_advance ≠ 0
          · rw [if_pos hgate] at hg
            rcases List.mem_cons.mp hg with hgeq | hg2
            · subst hgeq
              exact Or.inl rfl
            · exact tailcase g hg2
          · rw [if_neg hgate] at hg
            exact tailcase g hg

/-- Witness for C10 at a concrete cluster over the fragment "ab". -/
theorem C10_witness :
    SegOK ctx3.graphemes ∧ isBoundary ['a', 'b'] 0 = true ∧
    ((∀ pl ∈ carveSteps ctx3.graphemes 1 ['a', 'b']
        [⟨0, 2, 7, 64, 0, 0, 0⟩, ⟨0, 0, 8, 192, 0, 0, 0⟩] 0,
      isBoundary ['a', 'b'] pl.1 = true ∧ isBoundary ['a', 'b'] (pl.1 + pl.2) = true ∧
      pl.1 + pl.2 ≤ utf8Len ['a', 'b']) ∧
     (∀ g ∈ emitRun ctx3 0 1 ['a', 'b']
        [⟨0, 2, 7, 64, 0, 0, 0⟩, ⟨0, 0, 8, 192, 0, 0, 0⟩] 0,
       g.text = ['_', '_'] ∨
       ∃ pl ∈ carveSteps ctx3.graphemes 1 ['a', 'b']
          [⟨0, 2, 7, 64, 0, 0, 0⟩, ⟨0, 0, 8, 192, 0, 0, 0⟩] 0,
         0 < pl.2 ∧ g.text = byteTake (byteDrop ['a', 'b'] pl.1) pl.2)) :=
  ⟨charSeg_ok, rfl,
    C10_carving_in_bounds ctx3 charSeg_ok 0 1 ['a', 'b']
      [⟨0, 2, 7, 64, 0, 0, 0⟩, ⟨0, 0, 8, 192, 0, 0, 0⟩] 0 rfl⟩

/-! ## C9: NaN rejection on the metrics-key path -/

/-- Unfolding of `metrics_for_idx` when the slot cannot be loaded. -/
theorem metrics_for_idx_eq_none {ctx : Ctx} {font_idx : Nat} {size : F64}
    {dpi : Nat} {st : St} (hl : loadPair ctx st font_idx = none) :
    metrics_for_idx ctx font_idx size dpi st = (st, Except.error MErr.loadFail) := by
  rw [metrics_for_idx, hl]

/-- Unfolding of `metrics_for_idx` when the slot loads. -/
theorem metrics_for_idx_eq_some {ctx : Ctx} {font_idx : Nat} {size : F64}
    {dpi : Nat} {st : St} {pair : FontPair} {st1 : St}
    (hl : loadPair ctx st font_idx = some (pair, st1)) :
    metrics_for_idx ctx font_idx size dpi st =
      (if size.isNaN then (st1, Except.error MErr.nanPanic)
       else
         match cacheGet st1.cache ⟨font_idx, size, dpi⟩ with
         | some m => (st1, Except.ok m)
         | none =>
           ({ st1 with cache := ((⟨font_idx, size, dpi⟩ : MetricsKey),
              { ctx.fmOf font_idx size.val dpi with
                presentation := pair.presentation }) :: st1.cache },
            Except.ok { ctx.fmOf font_idx size.val dpi with
              presentation := pair.presentation })) := by
  rw [metrics_for_idx, hl]

/-- C9: a NaN size panics at key construction before any cache insertion
(the cache is unchanged and no metrics are returned); a non-NaN size never
triggers that panic; and the cache never gains a key whose size is NaN. -/
theorem C9_nan_key_rejected (ctx : Ctx) (font_idx : Nat) (size : F64) (dpi : Nat)
    (st : St) :
    (size.isNaN = true →
      (metrics_for_idx ctx font_idx size dpi st).1.cache = st.cache ∧
      ∀ m, (metrics_for_idx ctx font_idx size dpi st).2 ≠ Except.ok m) ∧
    (size.isNaN = false →
      (metrics_for_idx ctx font_idx size dpi st).2 ≠ Except.error MErr.nanPanic) ∧
    ((∀ kv ∈ st.cache, kv.1.size.isNaN = false) →
      ∀ kv ∈ (metrics_for_idx ctx font_idx size dpi st).1.cache,
        kv.1.size.isNaN = false) := by
  cases hl : loadPair ctx st font_idx with
  | none =>
    rw [metrics_for_idx_eq_none hl]
    refine ⟨fun _ => ⟨rfl, fun m h => ?_⟩, fun _ h => ?_, fun hc => hc⟩
    · simp at h
    · simp at h
  | some x =>
    obtain ⟨pair, st1⟩ := x
    have hcache1 : st1.cache = st.cache := (loadPair_some_spec hl).2.1
    rw [metrics_for_idx_eq_some hl]
    by_cases hn : size.isNaN
    · rw [if_pos hn]
      refine ⟨fun _ => ⟨hcache1, fun m h => ?_⟩, fun hfalse => ?_, fun hc => ?_⟩
      · simp at h
      · rw [hn] at hfalse
        simp at hfalse
      · intro kv hkv
        apply hc
        rw [← hcache1]
        exact hkv
    · rw [if_neg hn]
      cases hg : cacheGet st1.cache ⟨font_idx, size, dpi⟩ with
      | some m0 =>
        refine ⟨fun htrue => absurd htrue hn, fun _ h => ?_, fun hc => ?_⟩
        · simp at h
        · intro kv hkv
          apply hc
          rw [← hcache1]
          exact hkv
      | none =>
        refine ⟨fun htrue => absurd htrue hn, fun _ h => ?_, fun hc kv hkv => ?_⟩
        · simp at h
        · simp only at hkv
          rcases List.mem_cons.mp hkv with hkv | hkv
          · subst hkv
            simpa using hn
          · rw [hcache1] at hkv
            exact hc kv hkv

/-- Witness for C9: a concrete NaN size leaves the cache unchanged and
returns no metrics. -/
theorem C9_witness :
    (metrics_for_idx ctx3 0 ⟨0, true⟩ 96 (St.init ctx3)).1.cache =
      (St.init ctx3).cache ∧
    ∀ m, (metrics_for_idx ctx3 0 ⟨0, true⟩ 96 (St.init ctx3)).2 ≠ Except.ok m :=
  (C9_nan_key_rejected ctx3 0 ⟨0, true⟩ 96 (St.init ctx3)).1 rfl

/-! ## C6: the metrics sanity loop -/

/-- The error of a metrics result, if any. -/
def mErrOf (r : St × Except MErr FontMetrics) : Option MErr :=
  match r.2 with
  | Except.error e => some e
  | Except.ok _ => none

/-- The metrics of a successful result, if any. -/
def mOkOf (r : St × Except MErr FontMetrics) : Option FontMetrics :=
  match r.2 with
  | Except.ok m => some m
  | Except.error _ => none

/-- Specification of the sanity loop: starting inside the stack, it stops
at the first qualifying slot, or at the stack length when no slot
qualifies. -/
theorem metricsLoopGo_spec (ctx : Ctx) (size : F64) (dpi : Nat) (th : ℚ) :
    ∀ fuel i st, ctx.handles.length ≤ i + fuel → i ≤ ctx.handles.length →
      i ≤ (metricsLoopGo ctx size dpi th fuel i st).1 ∧
      ((metricsLoopGo ctx size dpi th fuel i st).1 = ctx.handles.length ∨
       ((metricsLoopGo ctx size dpi th fuel i st).1 < ctx.handles.length ∧
        qualifies ctx size dpi th (metricsLoopGo ctx size dpi th fuel i st).1)) ∧
      (∀ k, i ≤ k → k < (metricsLoopGo ctx size dpi th fuel i st).1 →
        ¬ qualifies ctx size dpi th k) := by
  intro fuel
  induction fuel with
  | zero =>
    intro i st hle hub
    have hi : i = ctx.handles.length := by omega
    rw [metricsLoopGo]
    exact ⟨Nat.le_refl _, Or.inl hi, fun k h1 h2 => absurd (Nat.lt_of_le_of_lt h1 h2)
      (by omega)⟩
  | succ n ih =>
    intro i st hle hub
    rw [metricsLoopGo]
    cases hl : loadPair ctx st i with
    | none =>
      simp only
      have hN := loadPair_none_iff.mp hl
      have hi : i = ctx.handles.length := by omega
      exact ⟨Nat.le_refl _, Or.inl hi, fun k h1 h2 => absurd (Nat.lt_of_le_of_lt h1 h2)
        (by omega)⟩
    | some x =>
      obtain ⟨pair0, st1⟩ := x
      simp only
      have hlt : i < ctx.handles.length := loadPair_lt hl
      by_cases hq : qualifies ctx size dpi th i
      · rw [if_pos hq]
        exact ⟨Nat.le_refl _, Or.inr ⟨hlt, hq⟩, fun k h1 h2 =>
          absurd (Nat.lt_of_le_of_lt h1 h2) (by omega)⟩
      · rw [if_neg hq]
        have hrec := ih (i + 1) st1 (by omega) (by omega)
        refine ⟨by omega, hrec.2.1, ?_⟩
        intro k h1 h2
        rcases Nat.eq_or_lt_of_le h1 with h1 | h1
        · rw [← h1]; exact hq
        · exact hrec.2.2 k h1 h2

/-- A one-slot stack whose selected cell height is 10 while the
theoretical height for 1 pt at 72 dpi is 1 (factor 9, outside the
window). -/
def ctxE6 : Ctx :=
  ⟨[false], fun _ _ => [], fun _ => 1, fun _ _ _ => 10,
    fun _ _ _ => ⟨10, 5, 0, 0, 0, Presentation.text⟩, charSeg, fun t => t.length⟩

/-- C6 counterexample: one slot whose selected height (10) is far from
the theoretical height (1 pt at 72 dpi), so no slot passes the sanity
window; `metrics` then delegates to `metrics_for_idx` at index 1 — past
the stack — and fails with the load error, even though slot 0 itself
yields metrics fine.  The claim's "if no slot qualifies, use slot 0"
does not hold. -/
theorem C6_counterexample :
    mErrOf (metrics ctxE6 ⟨1, false⟩ 72 (St.init ctxE6)) = some MErr.loadFail ∧
    mOkOf (metrics_for_idx ctxE6 0 ⟨1, false⟩ 72 (St.init ctxE6)) =
      some ⟨10, 5, 0, 0, 0, Presentation.text⟩ := by
  constructor
  · with_unfolding_all decide
  · with_unfolding_all decide

/-- The sanity-loop specification at the `metrics` entry point. -/
theorem metricsLoop_spec (ctx : Ctx) (size : F64) (dpi : Nat) (th : ℚ) (st : St) :
    ((metricsLoop ctx size dpi th 0 st).1 = ctx.handles.length ∨
     ((metricsLoop ctx size dpi th 0 st).1 < ctx.handles.length ∧
      qualifies ctx size dpi th (metricsLoop ctx size dpi th 0 st).1)) ∧
    (∀ k, k < (metricsLoop ctx size dpi th 0 st).1 →
      ¬ qualifies ctx size dpi th k) := by
  have hspec := metricsLoopGo_spec ctx size dpi th (ctx.handles.length + 1) 0 st
    (by omega) (by omega)
  rw [metricsLoop]
  simp only [Nat.sub_zero]
  exact ⟨hspec.2.1, fun k hk => hspec.2.2 k (by omega) hk⟩

/-- `metrics` delegates to `metrics_for_idx` at the loop's final index. -/
theorem metrics_eq (ctx : Ctx) (size : F64) (dpi : Nat) (st : St) :
    metrics ctx size dpi st =
      metrics_for_idx ctx
        (metricsLoop ctx size dpi (size.val * (dpi : ℚ) / 72) 0 st).1 size dpi
        (metricsLoop ctx size dpi (size.val * (dpi : ℚ) / 72) 0 st).2 := by
  rw [metrics]

/-- C6 (amended): `metrics` returns `metrics_for_idx` at the first slot
whose selected cell height passes the sanity window
`|theoretical - height| / theoretical < 2`; when no slot passes, the
index equals the stack length and the call fails with the load error —
it does not fall back to slot 0. -/
theorem C6_metrics_sanity (ctx : Ctx) (size : F64) (dpi : Nat) (st : St) :
    metrics ctx size dpi st =
      metrics_for_idx ctx
        (metricsLoop ctx size dpi (size.val * (dpi : ℚ) / 72) 0 st).1 size dpi
        (metricsLoop ctx size dpi (size.val * (dpi : ℚ) / 72) 0 st).2 ∧
    ((metricsLoop ctx size dpi (size.val * (dpi : ℚ) / 72) 0 st).1 =
        ctx.handles.length ∨
     ((metricsLoop ctx size dpi (size.val * (dpi : ℚ) / 72) 0 st).1 <
        ctx.handles.length ∧
      qualifies ctx size dpi (size.val * (dpi : ℚ) / 72)
        (metricsLoop ctx size dpi (size.val * (dpi : ℚ) / 72) 0 st).1)) ∧
    (∀ k, k < (metricsLoop ctx size dpi (size.val * (dpi : ℚ) / 72) 0 st).1 →
      ¬ qualifies ctx size dpi (size.val * (dpi : ℚ) / 72) k) ∧
    ((metricsLoop ctx size dpi (size.val * (dpi : ℚ) / 72) 0 st).1 =
        ctx.handles.length →
      (metrics ctx size dpi st).2 = Except.error MErr.loadFail) := by
  have hloop := metricsLoop_spec ctx size dpi (size.val * (dpi : ℚ) / 72) st
  refine ⟨metrics_eq ctx size dpi st, hloop.1, hloop.2, ?_⟩
  intro hN
  rw [metrics_eq ctx size dpi st, hN]
  rw [metrics_for_idx_eq_none (loadPair_none_iff.mpr (Nat.le_refl _))]

/-- Witness for C6 (amended): on the one-slot stack whose height fails the
window, the loop index reaches the stack length and `metrics` fails. -/
theorem C6_witness :
    (metricsLoop ctxE6 ⟨1, false⟩ 72
        ((⟨1, false⟩ : F64).val * ((72 : Nat) : ℚ) / 72) 0 (St.init ctxE6)).1 =
      ctxE6.handles.length ∧
    (metrics ctxE6 ⟨1, false⟩ 72 (St.init ctxE6)).2 = Except.error MErr.loadFail := by
  have hidx : (metricsLoop ctxE6 ⟨1, false⟩ 72
      ((⟨1, false⟩ : F64).val * ((72 : Nat) : ℚ) / 72) 0 (St.init ctxE6)).1 =
      ctxE6.handles.length := by
    with_unfolding_all decide
  exact ⟨hidx, (C6_metrics_sanity ctxE6 ⟨1, false⟩ 72 (St.init ctxE6)).2.2.2 hidx⟩

/-! ## C5: eviction, promotion and the pinned-pair invariant -/

theorem evictStep_fonts_length (b : Bool) (j d : Nat) (st : St) :
    (evictStep b j d st).fonts.length = st.fonts.length := by
  rw [evictStep]
  split
  · rfl
  · split
    · simp
    · split <;> simp

theorem evictStep_getD_ne {j k : Nat} (hne : j ≠ k) (b : Bool) (d : Nat) (st : St) :
    (evictStep b j d st).fonts.getD k none = st.fonts.getD k none := by
  rw [evictStep]
  split
  · rfl
  · split
    · exact getD_set_ne hne none
    · split
      · exact getD_set_ne hne _
      · rfl

/-- A one-slot stack where the only cluster of "ab" covering 'a' is
unmapped, and the leftover 'b' maps with a full-cell advance; the
replacement-string retry at slot 0 finds nothing and evicts the slot
mid-call. -/
def ctxC5 : Ctx :=
  { handles := [false]
    backend := fun j t =>
      if j = 0 ∧ t = ['a', 'b'] then
        [⟨0, 0, 64, 0, 0, 0⟩, ⟨1, 5, 64, 0, 0, 0⟩]
      else []
    cellWidth := fun _ => 1
    heightOf := fun _ _ _ => 1
    fmOf := fun _ _ _ => fmZero
    graphemes := charSeg
    colWidth := fun t => t.length }

/-- State of `ctxC5` after slot 0 is materialized. -/
def stC5 : St := ⟨[some ⟨false, Presentation.text⟩], [], []⟩

/-- The `direct_clusters` count of a per-cluster loop result. -/
def directOf (r : St × Except Err (List GlyphInfo × Nat)) : Nat :=
  match r.2 with
  | Except.ok (_, d) => d
  | Except.error _ => 0

/-- C5 counterexample: the call shapes at slot 0 whose pair had
`shaped_any = false` before shaping, the per-cluster loop directly emits
one glyph (`direct_clusters = 1`), yet the final state has slot 0 empty:
the replacement-string retry inside the same call evicted the slot, so
"otherwise shaped_any is set to true" fails — the flag is not set and the
successful call even ends with the pair gone. -/
theorem C5_counterexample :
    selectSlot ctxC5 none 0 (St.init ctxC5) =
      (stC5, some (0, ⟨false, Presentation.text⟩)) ∧
    directOf (processClusters ctxC5 (do_shape ctxC5 3) 0 (ctxC5.cellWidth 0)
      ['a', 'b'] none
      (buildClusters (withNext (utf8Len ['a', 'b']) (ctxC5.backend 0 ['a', 'b'])))
      stC5) = 1 ∧
    resOk (do_shape ctxC5 4 0 ['a', 'b'] (St.init ctxC5) none) = true ∧
    (do_shape ctxC5 4 0 ['a', 'b'] (St.init ctxC5) none).1.fonts.getD 0 none =
      none := by
  refine ⟨?_, ?_, ?_, ?_⟩
  · with_unfolding_all decide
  · set_option maxRecDepth 1000000 in with_unfolding_all decide
  · set_option maxRecDepth 1000000 in with_unfolding_all decide
  · set_option maxRecDepth 1000000 in with_unfolding_all decide

/-- The pinned-slot property: slot `k` holds a pair with `shaped_any`. -/
def Pinned (k : Nat) (st : St) : Prop :=
  (st.fonts.getD k none).map FontPair.shaped_any = some true

theorem pinned_iff {k : Nat} {st : St} :
    Pinned k st ↔ ∃ q, st.fonts.getD k none = some q ∧ q.shaped_any = true := by
  rw [Pinned]
  cases h : st.fonts.getD k none with
  | none => simp
  | some q => simp

theorem evictStep_true (j d : Nat) (st : St) : evictStep true j d st = st := by
  simp [evictStep]

/-- The shaping tail preserves well-formedness and any pin, provided the
shaping slot's pair was already pinned whenever it is the pinned slot. -/
theorem shapeTail_pinned (ctx : Ctx) (fuel j : Nat) (b : Bool) (s : Str)
    (st0 : St) (pres : Option Presentation) (k : Nat)
    (hrec : ∀ i t st pres, ctx.handles.length ≤ st.fonts.length → Pinned k st →
      ctx.handles.length ≤ (do_shape ctx fuel i t st pres).1.fonts.length ∧
      Pinned k (do_shape ctx fuel i t st pres).1)
    (hW : ctx.handles.length ≤ st0.fonts.length) (hP : Pinned k st0)
    (hjb : j = k → b = true) :
    ctx.handles.length ≤
      (shapeTail ctx (do_shape ctx fuel) j b s st0 pres).1.fonts.length ∧
    Pinned k (shapeTail ctx (do_shape ctx fuel) j b s st0 pres).1 := by
  rw [shapeTail]
  rcases h3 : processClusters ctx (do_shape ctx fuel) j (ctx.cellWidth j) s pres
      (buildClusters (withNext (utf8Len s) (ctx.backend j s))) st0 with ⟨st2, r2⟩
  have hst2 : ctx.handles.length ≤ st2.fonts.length ∧ Pinned k st2 := by
    have hx := processClusters_rel
      (fun a b => (ctx.handles.length ≤ a.fonts.length ∧ Pinned k a) →
        (ctx.handles.length ≤ b.fonts.length ∧ Pinned k b))
      (fun st h => h) (fun a b c h1 h2 h => h2 (h1 h)) ctx (do_shape ctx fuel)
      (fun i t st pres h => hrec i t st pres h.1 h.2) j (ctx.cellWidth j) s pres
      (buildClusters (withNext (utf8Len s) (ctx.backend j s))) st0
    rw [h3] at hx
    exact hx ⟨hW, hP⟩
  rcases r2 with e2 | p2
  · exact hst2
  · obtain ⟨gs, d⟩ := p2
    simp only
    by_cases hb : b = true
    · rw [hb, evictStep_true]
      exact hst2
    · have hne : j ≠ k := fun hjk => hb (hjb hjk)
      constructor
      · rw [evictStep_fonts_length]
        exact hst2.1
      · show ((evictStep b j d st2).fonts.getD k none).map FontPair.shaped_any =
          some true
        rw [evictStep_getD_ne hne]
        exact hst2.2

/-- Pins survive whole `do_shape` calls and the slot table never shrinks. -/
theorem do_shape_pinned (ctx : Ctx) :
    ∀ fuel idx s st pres k,
      ctx.handles.length ≤ st.fonts.length → Pinned k st →
      ctx.handles.length ≤ (do_shape ctx fuel idx s st pres).1.fonts.length ∧
      Pinned k (do_shape ctx fuel idx s st pres).1 := by
  intro fuel
  induction fuel with
  | zero => intro idx s st pres k hW hP; exact ⟨hW, hP⟩
  | succ n ih =>
    intro idx s st pres k hW hP
    rcases hsel : selectSlot ctx pres idx st with ⟨st1, res⟩
    have hspec := selectSlot_spec ctx pres idx st st1 res hsel
    have hW1 : ctx.handles.length ≤ st1.fonts.length := by
      rw [hspec.1.2.2.1]
      exact hW
    have hP1 : Pinned k st1 := by
      obtain ⟨q, hq, hqt⟩ := pinned_iff.mp hP
      exact pinned_iff.mpr ⟨q, hspec.1.2.2.2 k q hq, hqt⟩
    cases res with
    | none =>
      rw [do_shape_succ_none ctx hsel]
      exact ⟨hW1, hP1⟩
    | some jp =>
      obtain ⟨j, pair⟩ := jp
      have hjb : j = k → pair.shaped_any = true := by
        intro hjk
        have hstored := (hspec.2.2 j pair rfl).2.2.2 hW
        obtain ⟨q, hq, hqt⟩ := pinned_iff.mp hP1
        rw [hjk, hq] at hstored
        injection hstored with hqq
        rw [← hqq]
        exact hqt
      rw [do_shape_succ_some ctx hsel]
      by_cases hj : j > 0 ∧ j + 1 = ctx.handles.length
      · rw [if_pos hj]
        by_cases hp : pres.isSome
        · rw [if_pos hp]
          exact ih idx s { st1 with no_glyphs := st1.no_glyphs ++ s } none k hW1 hP1
        · rw [if_neg hp]
          exact shapeTail_pinned ctx n j pair.shaped_any s
            { st1 with no_glyphs := st1.no_glyphs ++ s } pres k
            (fun i t st pres => ih i t st pres k) hW1 hP1 hjb
      · rw [if_neg hj]
        exact shapeTail_pinned ctx n j pair.shaped_any s st1 pres k
          (fun i t st pres => ih i t st pres k) hW1 hP1 hjb

/-- C5 (amended): a pair whose `shaped_any` flag is true at the start of a
`do_shape` call is still present with `shaped_any` true at its end — a
pinned slot is never evicted across call boundaries, and the flag is
never cleared on a live pair.  (Within a call, as `C5_counterexample`
shows, a slot whose flag was read as false before shaping can be evicted
by the replacement-string retry even though glyphs were directly emitted,
so the "otherwise shaped_any is set to true" step applies only when the
slot still holds its pair.) -/
theorem C5_pinned_pair (ctx : Ctx) (fuel idx : Nat) (s : Str) (st : St)
    (pres : Option Presentation) (k : Nat)
    (hwf : ctx.handles.length ≤ st.fonts.length)
    (hk : (st.fonts.getD k none).map FontPair.shaped_any = some true) :
    ((do_shape ctx fuel idx s st pres).1.fonts.getD k none).map
      FontPair.shaped_any = some true :=
  (do_shape_pinned ctx fuel idx s st pres k hwf hk).2

/-- State of `ctxC5` with slot 0 pinned. -/
def stC5t : St := ⟨[some ⟨true, Presentation.text⟩], [], []⟩

/-- Witness for C5 (amended): the pinned slot survives the same shaping
call that evicts an unpinned one. -/
theorem C5_witness :
    ctxC5.handles.length ≤ stC5t.fonts.length ∧
    ((do_shape ctxC5 4 0 ['a', 'b'] stC5t none).1.fonts.getD 0 none).map
      FontPair.shaped_any = some true :=
  ⟨by decide, C5_pinned_pair ctxC5 4 0 ['a', 'b'] stC5t none 0 (by decide) rfl⟩

/-! ## C1: cluster boundaries and monotonicity -/

/-- A one-slot stack where shaping "ab" yields one unmapped cluster, the
next-slot recursion runs off the stack, and the replacement-string retry
shapes two replacement characters at byte offsets 0 and 3 — offsets of
the replacement string, not of "ab". -/
def ctxC1 : Ctx :=
  { handles := [false]
    backend := fun j t =>
      if j = 0 ∧ t = ['a', 'b'] then [⟨0, 0, 64, 0, 0, 0⟩]
      else if j = 0 ∧ t = [replChar, replChar] then
        [⟨0, 1, 64, 0, 0, 0⟩, ⟨3, 2, 64, 0, 0, 0⟩]
      else []
    cellWidth := fun _ => 1
    heightOf := fun _ _ _ => 1
    fmOf := fun _ _ _ => fmZero
    graphemes := charSeg
    colWidth := fun t => t.length }

theorem backendMono_ctxC1 : BackendMono ctxC1 := by
  intro j t
  have hb : ctxC1.backend j t =
      (if j = 0 ∧ t = ['a', 'b'] then ([⟨0, 0, 64, 0, 0, 0⟩] : List HbGlyph)
       else if j = 0 ∧ t = [replChar, replChar] then
         [⟨0, 1, 64, 0, 0, 0⟩, ⟨3, 2, 64, 0, 0, 0⟩]
       else []) := rfl
  rw [hb]
  split_ifs with h1 h2
  · refine ⟨by simp, ?_⟩
    intro g hg
    simp at hg
    rw [hg]
    exact isBoundary_zero t
  · obtain ⟨hj, ht⟩ := h2
    subst ht
    refine ⟨by simp, ?_⟩
    intro g hg
    simp at hg
    rcases hg with hg | hg <;> rw [hg] <;> decide
  · exact ⟨by simp, by intro g hg; simp at hg⟩

/-- C1 counterexample: the backend honors the monotone-graphemes contract
on every input, yet the successful shape of "ab" returns clusters 0 and 3
— and 3 is not a UTF-8 boundary of "ab" (byte length 2).  The offsets of
the replacement-string retry are shifted into the original text, breaking
the boundary (and, with more clusters, the monotonicity) invariant. -/
theorem C1_counterexample :
    BackendMono ctxC1 ∧
    resOk (do_shape ctxC1 5 0 ['a', 'b'] (St.init ctxC1) none) = true ∧
    resClusters (do_shape ctxC1 5 0 ['a', 'b'] (St.init ctxC1) none) = [0, 3] ∧
    isBoundary ['a', 'b'] 3 = false := by
  refine ⟨backendMono_ctxC1, ?_, ?_, by decide⟩
  · set_option maxRecDepth 1000000 in with_unfolding_all decide
  · set_option maxRecDepth 1000000 in with_unfolding_all decide

/-- The facts that hold along the `withNext` output when the backend
honors its contract: each cluster and each next-position is a boundary,
clusters do not exceed their next-positions, and each next-position is
the cluster of the following entry. -/
def WiredFrom (s : Str) : List (HbGlyph × Nat) → Prop
  | [] => True
  | (g, np) :: rest =>
      isBoundary s g.cluster = true ∧ isBoundary s np = true ∧ g.cluster ≤ np ∧
      (∀ g2 np2 rest2, rest = (g2, np2) :: rest2 → np = g2.cluster) ∧
      WiredFrom s rest

theorem withNext_head_fst {total : Nat} {x : HbGlyph} {l : List HbGlyph}
    {g2 : HbGlyph} {np2 : Nat} {rest2 : List (HbGlyph × Nat)}
    (h : withNext total (x :: l) = (g2, np2) :: rest2) : g2 = x := by
  cases l with
  | nil =>
    rw [withNext] at h
    injection h with h1 h2
    injection h1 with h1
    exact h1.symm
  | cons y l2 =>
    rw [withNext] at h
    injection h with h1 h2
    injection h1 with h1
    exact h1.symm

theorem withNext_wired (s : Str) :
    ∀ raw : List HbGlyph,
      List.Pairwise (· ≤ ·) (raw.map HbGlyph.cluster) →
      (∀ g ∈ raw, isBoundary s g.cluster = true) →
      WiredFrom s (withNext (utf8Len s) raw) := by
  intro raw
  induction raw with
  | nil => intro _ _; trivial
  | cons g rest ih =>
    intro hmono hb
    cases rest with
    | nil =>
      rw [withNext]
      refine ⟨hb g (by simp), isBoundary_utf8Len s, ?_, ?_, trivial⟩
      · exact isBoundary_le (hb g (by simp))
      · intro g2 np2 rest2 h
        simp at h
    | cons g2 rest2 =>
      rw [withNext]
      have hmono2 : List.Pairwise (· ≤ ·) ((g2 :: rest2).map HbGlyph.cluster) := by
        simp only [List.map_cons] at hmono ⊢
        exact hmono.tail
      refine ⟨hb g (by simp), hb g2 (by simp), ?_, ?_, ih hmono2 (fun x hx => hb x (by simp [hx]))⟩
      · simp only [List.map_cons, List.pairwise_cons] at hmono
        exact hmono.1 g2.cluster (by simp)
      · intro g3 np3 rest3 h
        rw [withNext_head_fst h]

/-- Invariant shape of the partition produced by the grouping loop:
consecutive groups tile the byte range, each group is nonempty, shares a
single cluster offset, and both its start and its end lie on boundaries. -/
def GroupsOK (s : Str) : Nat → List (List Info) → Prop
  | _, [] => True
  | lo, G :: rest =>
      G ≠ [] ∧ (∀ i ∈ G, i.cluster = startOf G) ∧ lo ≤ startOf G ∧
      isBoundary s (startOf G) = true ∧
      isBoundary s (startOf G + sumLen G) = true ∧
      GroupsOK s (startOf G + sumLen G) rest

theorem GroupsOK_mono {s : Str} {lo lo2 : Nat} {Gs : List (List Info)}
    (hle : lo2 ≤ lo) (h : GroupsOK s lo Gs) : GroupsOK s lo2 Gs := by
  cases Gs with
  | nil => trivial
  | cons G rest =>
    obtain ⟨h1, h2, h3, h4, h5, h6⟩ := h
    exact ⟨h1, h2, Nat.le_trans hle h3, h4, h5, h6⟩

theorem startOf_shared {G : List Info} {c : Nat} (hne : G ≠ [])
    (hsh : ∀ i ∈ G, i.cluster = c) : startOf G = c := by
  cases G with
  | nil => exact absurd rfl hne
  | cons a t => exact hsh a (by simp)

theorem sumLen_reverse (G : List Info) : sumLen G.reverse = sumLen G := by
  rw [sumLen, sumLen, List.map_reverse, List.sum_reverse]

/-- Main invariant of the grouping loop, by induction over the remaining
wired input.  `last :: prev` is the group under construction (most recent
member first), all sharing cluster `c`; all members but the most recent
have length zero, the accumulated length reaches exactly to `bnd`, and
`bnd` is the cluster of the next entry to process. -/
theorem clusterGo_spec (s : Str) :
    ∀ (L : List (HbGlyph × Nat)) (last : Info) (prev : List Info) (c bnd : Nat),
      WiredFrom s L →
      (∀ g np rest, L = (g, np) :: rest → g.cluster = bnd) →
      (∀ i ∈ last :: prev, i.cluster = c) →
      sumLen prev = 0 → sumLen (last :: prev) = bnd - c → c ≤ bnd →
      isBoundary s c = true → isBoundary s bnd = true →
      GroupsOK s c (clusterGo (last :: prev) L) := by
  intro L
  induction L with
  | nil =>
    intro last prev c bnd hw hchain hshare hprev hsum hle hbc hbb
    rw [clusterGo]
    have hne : (last :: prev).reverse ≠ [] := by simp
    have hsh : ∀ i ∈ (last :: prev).reverse, i.cluster = c := by
      intro i hi
      exact hshare i (List.mem_reverse.mp hi)
    have hst : startOf ((last :: prev).reverse) = c := startOf_shared hne hsh
    refine ⟨hne, ?_, ?_, ?_, ?_, trivial⟩
    · intro i hi
      rw [hst]
      exact hsh i hi
    · rw [hst]
    · rw [hst]
      exact hbc
    · rw [hst, sumLen_reverse, hsum]
      have harith : c + (bnd - c) = bnd := by omega
      rw [harith]
      exact hbb
  | cons hd L ih =>
    obtain ⟨g, np⟩ := hd
    intro last prev c bnd hw hchain hshare hprev hsum hle hbc hbb
    obtain ⟨hbg, hbnp, hgle, hchain2, hw2⟩ := hw
    have hgc : g.cluster = bnd := hchain g np L rfl
    have hlastc : last.cluster = c := hshare last (by simp)
    rw [clusterGo]
    by_cases hsame : (mkInfo g np).cluster = last.cluster
    · rw [if_pos hsame]
      have hcb : c = bnd := by
        have : (mkInfo g np).cluster = g.cluster := rfl
        omega
      have hsum0 : sumLen (last :: prev) = 0 := by omega
      apply ih (mkInfo g np) (last :: prev) c np hw2
        (fun g2 np2 r2 h => (hchain2 g2 np2 r2 h).symm)
      · intro i hi
        rcases List.mem_cons.mp hi with hi | hi
        · rw [hi]
          show g.cluster = c
          omega
        · exact hshare i hi
      · exact hsum0
      · show sumLen (mkInfo g np :: last :: prev) = np - c
        rw [sumLen, List.map_cons, List.sum_cons]
        have : sumLen (last :: prev) = 0 := hsum0
        rw [sumLen] at this
        rw [this]
        show (mkInfo g np).len + 0 = np - c
        have hlen : (mkInfo g np).len = np - g.cluster := rfl
        omega
      · omega
      · exact hbc
      · exact hbnp
    · rw [if_neg hsame]
      by_cases habs : (mkInfo g np).codepoint = 0 ∧ last.codepoint = 0
      · rw [if_pos habs]
        apply ih { last with len := np - last.cluster } prev c np hw2
          (fun g2 np2 r2 h => (hchain2 g2 np2 r2 h).symm)
        · intro i hi
          rcases List.mem_cons.mp hi with hi | hi
          · rw [hi]
            show last.cluster = c
            exact hlastc
          · exact hshare i (by simp [hi])
        · exact hprev
        · show sumLen ({ last with len := np - last.cluster } :: prev) = np - c
          rw [sumLen, List.map_cons, List.sum_cons]
          rw [sumLen] at hprev
          rw [hprev]
          show np - last.cluster + 0 = np - c
          omega
        · omega
        · exact hbc
        · exact hbnp
      · rw [if_neg habs]
        have hne : (last :: prev).reverse ≠ [] := by simp
        have hsh : ∀ i ∈ (last :: prev).reverse, i.cluster = c := by
          intro i hi
          exact hshare i (List.mem_reverse.mp hi)
        have hst : startOf ((last :: prev).reverse) = c := startOf_shared hne hsh
        have hend : startOf ((last :: prev).reverse) +
            sumLen ((last :: prev).reverse) = bnd := by
          rw [hst, sumLen_reverse, hsum]
          omega
        refine ⟨hne, ?_, ?_, ?_, ?_, ?_⟩
        · intro i hi
          rw [hst]
          exact hsh i hi
        · rw [hst]
        · rw [hst]
          exact hbc
        · rw [hend]
          exact hbb
        · rw [hend]
          have hrec := ih (mkInfo g np) [] g.cluster np hw2
            (fun g2 np2 r2 h => (hchain2 g2 np2 r2 h).symm)
            (by intro i hi
                rcases List.mem_cons.mp hi with hi | hi
                · rw [hi]
                  rfl
                · simp at hi)
            (by rw [sumLen]; rfl)
            (by show sumLen [mkInfo g np] = np - g.cluster
                rw [sumLen, List.map_cons, List.sum_cons]
                simp [mkInfo])
            hgle hbg hbnp
          rw [← hgc]
          exact hrec

theorem buildClusters_spec (s : Str) (raw : List HbGlyph)
    (hmono : List.Pairwise (· ≤ ·) (raw.map HbGlyph.cluster))
    (hb : ∀ g ∈ raw, isBoundary s g.cluster = true) :
    GroupsOK s 0 (buildClusters (withNext (utf8Len s) raw)) := by
  cases raw with
  | nil =>
    rw [withNext, buildClusters]
    trivial
  | cons g rest =>
    have hw := withNext_wired s (g :: rest) hmono hb
    rcases hwn : withNext (utf8Len s) (g :: rest) with _ | ⟨⟨g0, np0⟩, L2⟩
    · cases rest <;> simp [withNext] at hwn
    · have hg0 : g0 = g := withNext_head_fst hwn
      rw [hwn] at hw
      obtain ⟨hbg, hbnp, hgle, hchain2, hw2⟩ := hw
      have hgoal := clusterGo_spec s L2 (mkInfo g0 np0) [] g0.cluster np0 hw2
        (fun g2 np2 r2 h => (hchain2 g2 np2 r2 h).symm)
        (by intro i hi
            rcases List.mem_cons.mp hi with hi | hi
            · rw [hi]
              rfl
            · simp at hi)
        (by rw [sumLen]; rfl)
        (by show sumLen [mkInfo g0 np0] = np0 - g0.cluster
            rw [sumLen, List.map_cons, List.sum_cons]
            simp [mkInfo])
        hgle hbg hbnp
      exact GroupsOK_mono (Nat.zero_le _) hgoal

/-- Codepoints of grouped infos are codepoints of the loop's inputs. -/
theorem clusterGo_codepoints :
    ∀ (L : List (HbGlyph × Nat)) (cur : List Info) (G : List Info) (i : Info),
      G ∈ clusterGo cur L → i ∈ G →
      (∃ i2 ∈ cur, i.codepoint = i2.codepoint) ∨
      (∃ p ∈ L, i.codepoint = p.1.codepoint) := by
  intro L
  induction L with
  | nil =>
    intro cur G i hG hi
    rw [clusterGo] at hG
    rcases List.mem_cons.mp hG with hG | hG
    · subst hG
      exact Or.inl ⟨i, List.mem_reverse.mp hi, rfl⟩
    · simp at hG
  | cons hd L ih =>
    obtain ⟨g, np⟩ := hd
    intro cur G i hG hi
    cases cur with
    | nil =>
      have hG2 : G ∈ clusterGo [mkInfo g np] L := hG
      rcases ih [mkInfo g np] G i hG2 hi with ⟨i2, hi2, he⟩ | ⟨p, hp, he⟩
      · rcases List.mem_cons.mp hi2 with hi2 | hi2
        · subst hi2
          exact Or.inr ⟨(g, np), by simp, he⟩
        · simp at hi2
      · exact Or.inr ⟨p, by simp [hp], he⟩
    | cons last prev =>
      rw [clusterGo] at hG
      by_cases hsame : (mkInfo g np).cluster = last.cluster
      · rw [if_pos hsame] at hG
        rcases ih (mkInfo g np :: last :: prev) G i hG hi with ⟨i2, hi2, he⟩ | ⟨p, hp, he⟩
        · rcases List.mem_cons.mp hi2 with hi2 | hi2
          · subst hi2
            exact Or.inr ⟨(g, np), by simp, he⟩
          · exact Or.inl ⟨i2, hi2, he⟩
        · exact Or.inr ⟨p, by simp [hp], he⟩
      · rw [if_neg hsame] at hG
        by_cases habs : (mkInfo g np).codepoint = 0 ∧ last.codepoint = 0
        · rw [if_pos habs] at hG
          rcases ih ({ last with len := np - last.cluster } :: prev) G i hG hi
            with ⟨i2, hi2, he⟩ | ⟨p, hp, he⟩
          · rcases List.mem_cons.mp hi2 with hi2 | hi2
            · subst hi2
              exact Or.inl ⟨last, by simp, he⟩
            · exact Or.inl ⟨i2, by simp [hi2], he⟩
          · exact Or.inr ⟨p, by simp [hp], he⟩
        · rw [if_neg habs] at hG
          rcases List.mem_cons.mp hG with hG | hG
          · subst hG
            exact Or.inl ⟨i, List.mem_reverse.mp hi, rfl⟩
          · rcases ih [mkInfo g np] G i hG hi with ⟨i2, hi2, he⟩ | ⟨p, hp, he⟩
            · rcases List.mem_cons.mp hi2 with hi2 | hi2
              · subst hi2
                exact Or.inr ⟨(g, np), by simp, he⟩
              · simp at hi2
            · exact Or.inr ⟨p, by simp [hp], he⟩

theorem withNext_fst_mem {total : Nat} :
    ∀ (raw : List HbGlyph) (p : HbGlyph × Nat), p ∈ withNext total raw → p.1 ∈ raw := by
  intro raw
  induction raw with
  | nil => intro p hp; rw [withNext] at hp; simp at hp
  | cons g rest ih =>
    intro p hp
    cases rest with
    | nil =>
      rw [withNext] at hp
      simp at hp
      rw [hp]
      simp
    | cons g2 rest2 =>
      rw [withNext] at hp
      rcases List.mem_cons.mp hp with hp | hp
      · rw [hp]
        simp
      · have := ih p hp
        simp [this]

/-- Codepoints of built clusters are codepoints the backend returned. -/
theorem buildClusters_codepoints {L : List (HbGlyph × Nat)} {G : List Info}
    {i : Info} (hG : G ∈ buildClusters L) (hi : i ∈ G) :
    ∃ p ∈ L, i.codepoint = p.1.codepoint := by
  cases L with
  | nil => rw [buildClusters] at hG; simp at hG
  | cons hd L2 =>
    obtain ⟨g, np⟩ := hd
    have hG2 : G ∈ clusterGo [mkInfo g np] L2 := hG
    rcases clusterGo_codepoints L2 [mkInfo g np] G i hG2 hi
      with ⟨i2, hi2, he⟩ | ⟨p, hp, he⟩
    · rcases List.mem_cons.mp hi2 with hi2 | hi2
      · subst hi2
        exact ⟨(g, np), by simp, he⟩
      · simp at hi2
    · exact ⟨p, by simp [hp], he⟩

/-- Clusters of emitted glyphs are clusters of the group's infos. -/
theorem emitRun_cluster_mem (ctx : Ctx) (j : Nat) (cellw : ℚ) (substr : Str) :
    ∀ infos b g, g ∈ emitRun ctx j cellw substr infos b →
      ∃ i ∈ infos, g.cluster = i.cluster := by
  intro infos
  induction infos with
  | nil => intro b g hg; rw [emitRun] at hg; simp at hg
  | cons info rest ih =>
    intro b g hg
    rw [emitRun] at hg
    by_cases hz : info.x_advance = 0
    · rw [if_pos hz] at hg
      obtain ⟨i, hi, he⟩ := ih b g hg
      exact ⟨i, by simp [hi], he⟩
    · rw [if_neg hz] at hg
      simp only at hg
      by_cases hL : 0 < carveLen ctx.graphemes substr cellw b info.x_advance
      · rw [if_pos hL] at hg
        by_cases hgate : (make_glyphinfo ctx (byteTake (byteDrop substr b)
            (carveLen ctx.graphemes substr cellw b info.x_advance)) j
            info).x_advance ≠ 0
        · rw [if_pos hgate] at hg
          rcases List.mem_cons.mp hg with hg | hg
          · subst hg
            exact ⟨info, by simp, rfl⟩
          · obtain ⟨i, hi, he⟩ := ih _ g hg
            exact ⟨i, by simp [hi], he⟩
        · rw [if_neg hgate] at hg
          obtain ⟨i, hi, he⟩ := ih _ g hg
          exact ⟨i, by simp [hi], he⟩
      · rw [if_neg hL] at hg
        by_cases hgate : (make_glyphinfo ctx ['_', '_'] j info).x_advance ≠ 0
        · rw [if_pos hgate] at hg
          rcases List.mem_cons.mp hg with hg | hg
          · subst hg
            exact ⟨info, by simp, rfl⟩
          · obtain ⟨i, hi, he⟩ := ih _ g hg
            exact ⟨i, by simp [hi], he⟩
        · rw [if_neg hgate] at hg
          obtain ⟨i, hi, he⟩ := ih _ g hg
          exact ⟨i, by simp [hi], he⟩

theorem byteSlice_utf8Len {s : Str} {a L : Nat} (ha : isBoundary s a = true)
    (hab : isBoundary s (a + L) = true) : utf8Len (byteSlice s a L) = L := by
  rw [byteSlice]
  have hdrop : isBoundary (byteDrop s a) L = true := by
    rw [isBoundary_byteDrop ha]
    exact hab
  exact utf8Len_byteTake hdrop

theorem byteSlice_boundary_lift {s : Str} {a L b : Nat}
    (ha : isBoundary s a = true) (hab : isBoundary s (a + L) = true)
    (hb : isBoundary (byteSlice s a L) b = true) :
    isBoundary s (a + b) = true := by
  rw [byteSlice] at hb
  have hdropL : isBoundary (byteDrop s a) L = true := by
    rw [isBoundary_byteDrop ha]
    exact hab
  have hdropb : isBoundary (byteDrop s a) b = true :=
    isBoundary_of_byteTake hdropL hb
  rw [isBoundary_byteDrop ha] at hdropb
  exact hdropb

theorem pairwise_const_le {l : List Nat} {k : Nat} (h : ∀ x ∈ l, x = k) :
    List.Pairwise (· ≤ ·) l := by
  induction l with
  | nil => exact List.Pairwise.nil
  | cons a t ih =>
    refine List.Pairwise.cons ?_ (ih fun x hx => h x (by simp [hx]))
    intro y hy
    rw [h a (by simp), h y (by simp [hy])]

@[simp] theorem resOk_pair_ok (st : St) (gs : List GlyphInfo) :
    resOk (st, Except.ok gs) = true := rfl

@[simp] theorem resOk_pair_err (st : St) (e : Err) :
    resOk (st, Except.error e) = false := rfl

@[simp] theorem resClusters_pair_ok (st : St) (gs : List GlyphInfo) :
    resClusters (st, Except.ok gs) = gs.map GlyphInfo.cluster := rfl

/-- Soundness of the per-cluster loop: under a tiling partition and
well-behaved recursion for unmapped clusters, the loop succeeds, its
output clusters are non-decreasing, and each is a boundary of the sub-run
at or after the partition's base offset. -/
theorem processClusters_mono_ok (ctx : Ctx)
    (recurse : Nat → Str → St → Option Presentation → St × Except Err (List GlyphInfo))
    (j : Nat) (cellw : ℚ) (s : Str) (pres : Option Presentation) :
    ∀ Gs st lo, GroupsOK s lo Gs →
      (∀ G ∈ Gs, (G.any fun i => i.codepoint == 0) = true →
        ∀ st2, resOk (recurse (j + 1)
            (byteSlice s (startOf G) (sumLen G)) st2 pres) = true ∧
          List.Pairwise (· ≤ ·) (resClusters (recurse (j + 1)
            (byteSlice s (startOf G) (sumLen G)) st2 pres)) ∧
          (∀ c ∈ resClusters (recurse (j + 1)
            (byteSlice s (startOf G) (sumLen G)) st2 pres),
            isBoundary (byteSlice s (startOf G) (sumLen G)) c = true)) →
      ∃ gs d st9,
        processClusters ctx recurse j cellw s pres Gs st = (st9, Except.ok (gs, d)) ∧
        List.Pairwise (· ≤ ·) (gs.map GlyphInfo.cluster) ∧
        ∀ g ∈ gs, isBoundary s g.cluster = true ∧ lo ≤ g.cluster := by
  intro Gs
  induction Gs with
  | nil =>
    intro st lo hok hrec
    exact ⟨[], 0, st, rfl, List.Pairwise.nil, by simp⟩
  | cons G rest ih =>
    intro st lo hok hrec
    obtain ⟨hGne, hshare, hlo, hbst, hbend, hrest⟩ := hok
    simp only [processClusters]
    by_cases hinc : (G.any fun i => i.codepoint == 0) = true
    · rw [if_pos hinc]
      rcases h1 : recurse (j + 1) (byteSlice s (startOf G) (sumLen G)) st pres
        with ⟨st1, r1⟩
      have htop := hrec G (by simp) hinc st
      rw [h1] at htop
      rcases r1 with e | sh
      · exact absurd htop.1 (by simp)
      · simp only
        obtain ⟨gs2, d2, st9, heq2, hsort2, hprops2⟩ :=
          ih st1 (startOf G + sumLen G) hrest
            (fun G2 hG2 => hrec G2 (by simp [hG2]))
        rw [heq2]
        refine ⟨(sh.map fun gl => { gl with cluster := gl.cluster + startOf G }) ++ gs2,
          d2, st9, rfl, ?_, ?_⟩
        · rw [List.map_append, List.pairwise_append]
          have hshmap : (sh.map fun gl =>
              ({ gl with cluster := gl.cluster + startOf G } : GlyphInfo)).map
                GlyphInfo.cluster =
              (sh.map GlyphInfo.cluster).map (· + startOf G) := by
            rw [List.map_map, List.map_map]
            rfl
          have hsortsh : List.Pairwise (· ≤ ·) (sh.map GlyphInfo.cluster) := by
            simpa using htop.2.1
          refine ⟨?_, hsort2, ?_⟩
          · rw [hshmap]
            exact hsortsh.map _ (fun a b hab => Nat.add_le_add_right hab _)
          · intro a ha b hb
            rw [hshmap] at ha
            obtain ⟨c0, hc0, hac⟩ := List.mem_map.mp ha
            have hbc0 : isBoundary (byteSlice s (startOf G) (sumLen G)) c0 = true := by
              have := htop.2.2 c0 (by simpa using hc0)
              exact this
            have hc0le : c0 ≤ sumLen G := by
              have := isBoundary_le hbc0
              rw [byteSlice_utf8Len hbst hbend] at this
              exact this
            obtain ⟨g2, hg2, hbg2⟩ := List.mem_map.mp hb
            have := (hprops2 g2 hg2).2
            omega
        · intro g hg
          rcases List.mem_append.mp hg with hg | hg
          · obtain ⟨g0, hg0, hgg⟩ := List.mem_map.mp hg
            have hbc0 : isBoundary (byteSlice s (startOf G) (sumLen G))
                g0.cluster = true := by
              have := htop.2.2 g0.cluster
                (by simp only [resClusters_pair_ok]; exact List.mem_map_of_mem _ hg0)
              exact this
            constructor
            · rw [← hgg]
              show isBoundary s (g0.cluster + startOf G) = true
              rw [Nat.add_comm]
              exact byteSlice_boundary_lift hbst hbend hbc0
            · rw [← hgg]
              show lo ≤ g0.cluster + startOf G
              omega
          · obtain ⟨hb1, hb2⟩ := hprops2 g hg
            exact ⟨hb1, by omega⟩
    · rw [if_neg hinc]
      obtain ⟨gs2, d2, st9, heq2, hsort2, hprops2⟩ :=
        ih st (startOf G + sumLen G) hrest (fun G2 hG2 => hrec G2 (by simp [hG2]))
      rw [heq2]
      refine ⟨emitRun ctx j cellw (byteSlice s (startOf G) (sumLen G)) G 0 ++ gs2,
        d2 + (emitRun ctx j cellw (byteSlice s (startOf G) (sumLen G)) G 0).length,
        st9, rfl, ?_, ?_⟩
      · rw [List.map_append, List.pairwise_append]
        have hconst : ∀ c ∈ (emitRun ctx j cellw
            (byteSlice s (startOf G) (sumLen G)) G 0).map GlyphInfo.cluster,
            c = startOf G := by
          intro c hc
          obtain ⟨g, hg, hgc⟩ := List.mem_map.mp hc
          obtain ⟨i, hi, he⟩ := emitRun_cluster_mem ctx j cellw _ G 0 g hg
          rw [← hgc, he]
          exact hshare i hi
        refine ⟨pairwise_const_le hconst, hsort2, ?_⟩
        · intro a ha b hb
          rw [hconst a ha]
          obtain ⟨g2, hg2, hbg2⟩ := List.mem_map.mp hb
          have := (hprops2 g2 hg2).2
          omega
      · intro g hg
        rcases List.mem_append.mp hg with hg | hg
        · obtain ⟨i, hi, he⟩ := emitRun_cluster_mem ctx j cellw _ G 0 g hg
          rw [he, hshare i hi]
          exact ⟨hbst, hlo⟩
        · obtain ⟨hb1, hb2⟩ := hprops2 g hg
          exact ⟨hb1, by omega⟩

/-- Recursion-budget weight of a presentation request: a `some`
presentation may cost one extra restart at the last-resort slot. -/
def presBit : Option Presentation → Nat
  | none => 0
  | some _ => 1

/-- Soundness of `shapeTail` given a well-behaved recursion oracle: with a
monotone backend and a total last-resort slot, cluster emission succeeds,
the cluster values are non-decreasing, and each is a boundary of the
sub-run. -/
theorem shapeTail_mono_ok (ctx : Ctx) (hbm : BackendMono ctx)
    (hlrt : LastResortTotal ctx) (fuel j : Nat) (sa : Bool) (s : Str)
    (st : St) (pres : Option Presentation) (hj : j < ctx.handles.length)
    (hfuel : 2 * (ctx.handles.length - j) + presBit pres ≤ fuel + 1)
    (ih : ∀ idx2 s2 st2 pres2, idx2 < ctx.handles.length →
      2 * (ctx.handles.length - idx2) + presBit pres2 ≤ fuel →
      resOk (do_shape ctx fuel idx2 s2 st2 pres2) = true ∧
      List.Pairwise (· ≤ ·) (resClusters (do_shape ctx fuel idx2 s2 st2 pres2)) ∧
      ∀ c ∈ resClusters (do_shape ctx fuel idx2 s2 st2 pres2),
        isBoundary s2 c = true) :
    resOk (shapeTail ctx (do_shape ctx fuel) j sa s st pres) = true ∧
    List.Pairwise (· ≤ ·)
      (resClusters (shapeTail ctx (do_shape ctx fuel) j sa s st pres)) ∧
    ∀ c ∈ resClusters (shapeTail ctx (do_shape ctx fuel) j sa s st pres),
      isBoundary s c = true := by
  have hgok := buildClusters_spec s (ctx.backend j s) (hbm j s).1 (hbm j s).2
  have hcond : ∀ G ∈ buildClusters (withNext (utf8Len s) (ctx.backend j s)),
      (G.any fun i => i.codepoint == 0) = true →
      ∀ st2, resOk (do_shape ctx fuel (j + 1)
          (byteSlice s (startOf G) (sumLen G)) st2 pres) = true ∧
        List.Pairwise (· ≤ ·) (resClusters (do_shape ctx fuel (j + 1)
          (byteSlice s (startOf G) (sumLen G)) st2 pres)) ∧
        (∀ c ∈ resClusters (do_shape ctx fuel (j + 1)
          (byteSlice s (startOf G) (sumLen G)) st2 pres),
          isBoundary (byteSlice s (startOf G) (sumLen G)) c = true) := by
    intro G hG hany st2
    have hjlt : j + 1 < ctx.handles.length := by
      rcases Nat.lt_or_ge (j + 1) ctx.handles.length with h | h
      · exact h
      · exfalso
        have hjeq : j = ctx.handles.length - 1 := by omega
        obtain ⟨i, hiG, hi0⟩ := List.any_eq_true.mp hany
        obtain ⟨p, hp, hpe⟩ := buildClusters_codepoints hG hiG
        have hpm := withNext_fst_mem (ctx.backend j s) p hp
        rw [hjeq] at hpm
        have hne := hlrt s p.1 hpm
        simp only [beq_iff_eq] at hi0
        rw [hi0] at hpe
        exact hne hpe.symm
    exact ih (j + 1) _ st2 pres hjlt (by omega)
  obtain ⟨gs, d, st9, heq, hsort, hprops⟩ :=
    processClusters_mono_ok ctx (do_shape ctx fuel) j (ctx.cellWidth j) s pres
      (buildClusters (withNext (utf8Len s) (ctx.backend j s))) st 0 hgok hcond
  simp only [shapeTail]
  rw [heq]
  refine ⟨rfl, by simpa using hsort, ?_⟩
  intro c hc
  simp only [resClusters_pair_ok] at hc
  obtain ⟨g, hg, hgc⟩ := List.mem_map.mp hc
  rw [← hgc]
  exact (hprops g hg).1

/-- Main induction over the recursion budget: with a monotone backend and
a total last-resort slot, every in-range `do_shape` call with sufficient
fuel succeeds, its cluster values are non-decreasing, and each is a
boundary of the sub-run. -/
theorem do_shape_mono_ok (ctx : Ctx) (hbm : BackendMono ctx)
    (hlrt : LastResortTotal ctx) :
    ∀ fuel idx s st pres, idx < ctx.handles.length →
      2 * (ctx.handles.length - idx) + presBit pres ≤ fuel →
      resOk (do_shape ctx fuel idx s st pres) = true ∧
      List.Pairwise (· ≤ ·) (resClusters (do_shape ctx fuel idx s st pres)) ∧
      ∀ c ∈ resClusters (do_shape ctx fuel idx s st pres),
        isBoundary s c = true := by
  intro fuel
  induction fuel with
  | zero =>
    intro idx s st pres hidx hfuel
    exfalso
    omega
  | succ fuel ih =>
    intro idx s st pres hidx hfuel
    rcases hsel : selectSlot ctx pres idx st with ⟨st1, r⟩
    have hspec := selectSlot_spec ctx pres idx st st1 r hsel
    cases r with
    | none =>
      exfalso
      have := (hspec.2.1 rfl).2
      omega
    | some jp =>
      obtain ⟨j, pair⟩ := jp
      obtain ⟨hj1, hj2, hj3, hj4⟩ := hspec.2.2 j pair rfl
      rw [do_shape_succ_some ctx hsel]
      by_cases hlr : j > 0 ∧ j + 1 = ctx.handles.length
      · rw [if_pos hlr]
        cases pres with
        | none =>
          rw [if_neg (by simp)]
          exact shapeTail_mono_ok ctx hbm hlrt fuel j pair.shaped_any s
            { st1 with no_glyphs := st1.no_glyphs ++ s } none hj2
            (by simp only [presBit]; omega) ih
        | some p =>
          rw [if_pos (by simp : (some p).isSome = true)]
          refine ih idx s { st1 with no_glyphs := st1.no_glyphs ++ s } none hidx ?_
          simp only [presBit] at hfuel ⊢
          omega
      · rw [if_neg hlr]
        exact shapeTail_mono_ok ctx hbm hlrt fuel j pair.shaped_any s st1 pres hj2
          (by omega) ih

/-- C1: for every successful `shape`/`do_shape` call, the returned cluster
values are non-decreasing and valid UTF-8 boundaries of the input —
assuming, beyond the backend's monotone-graphemes contract, that the
last-resort slot maps every codepoint (so the replacement-string recovery
path is never taken), the stack is nonempty, and the recursion budget is
sufficient; `C1_counterexample` shows the backend contract alone does not
suffice. -/
theorem C1_amended (ctx : Ctx) (fuel : Nat) (s : Str) (st : St)
    (pres : Option Presentation) (hbm : BackendMono ctx)
    (hlrt : LastResortTotal ctx) (hN : 0 < ctx.handles.length)
    (hfuel : 2 * ctx.handles.length + 1 ≤ fuel) :
    resOk (shape ctx fuel s st pres) = true ∧
    List.Pairwise (· ≤ ·) (resClusters (shape ctx fuel s st pres)) ∧
    ∀ c ∈ resClusters (shape ctx fuel s st pres), isBoundary s c = true := by
  have hbit : presBit pres ≤ 1 := by
    cases pres <;> simp [presBit]
  exact do_shape_mono_ok ctx hbm hlrt fuel 0 s st pres hN (by omega)

theorem C1_witness :
    resOk (shape ctx3 5 ['a', 'b'] (St.init ctx3) none) = true ∧
    List.Pairwise (· ≤ ·)
      (resClusters (shape ctx3 5 ['a', 'b'] (St.init ctx3) none)) ∧
    ∀ c ∈ resClusters (shape ctx3 5 ['a', 'b'] (St.init ctx3) none),
      isBoundary ['a', 'b'] c = true :=
  C1_amended ctx3 5 ['a', 'b'] (St.init ctx3) none
    (fun j t => ⟨List.Pairwise.nil, fun g hg => absurd hg (List.not_mem_nil g)⟩)
    (fun t g hg => absurd hg (List.not_mem_nil g))
    (by decide) (by decide)
